import Mathlib

/-!
Verification of the moderation pipeline of `main_patched.py` (telegram-news-bot).

The Python program is shallowly embedded: Python strings are lists of Unicode
scalar values (`PyStr := List Char`), Python's standard-library URL helpers
(CPython 3.11 `urllib.parse`: `urlsplit`, `urlparse`, `urlunsplit`,
`parse_qsl`, `urlencode`, `quote_plus`, `unquote`) are translated at the
character level, and the bot's global mutable state (`posted_links`,
`pending_posts`) is threaded explicitly.  Outbound transport calls (feed
fetch, Telegram sends, translation providers, image scraping, the NFKC
netloc check of `urllib.parse._checknetloc`) are modelled as explicit
oracle parameters; theorems quantify over all oracles.

Unicode idealisations, noted where they occur: `str.lower()` is modelled as
an ASCII + basic-Cyrillic case map, and `bytes.decode('utf-8', 'replace')`
follows the standard maximal-subpart replacement policy.  Neither affects
the claims, which are insensitive to exotic case mappings.
-/

set_option maxHeartbeats 1000000
set_option maxRecDepth 8000
set_option linter.unusedVariables false

/-- A Python `str` value: a sequence of Unicode scalar values. -/
abbrev PyStr := List Char

/-- Coerce a Lean string literal into the embedding's string type. -/
def pys (s : String) : PyStr := s.data

/-- `str.lower()` restricted to ASCII and the Cyrillic letters that occur in
this program (Russian А–Я/Ё and Ukrainian І/Ї/Є/Ґ).  Other characters are
fixed, which matches CPython on every character this program manipulates. -/
def pyLowerChar (c : Char) : Char :=
  if 65 ≤ c.toNat ∧ c.toNat ≤ 90 then Char.ofNat (c.toNat + 32)
  else if 0x410 ≤ c.toNat ∧ c.toNat ≤ 0x42F then Char.ofNat (c.toNat + 32)
  else if c.toNat = 0x401 then Char.ofNat 0x451
  else if c.toNat = 0x406 then Char.ofNat 0x456
  else if c.toNat = 0x407 then Char.ofNat 0x457
  else if c.toNat = 0x404 then Char.ofNat 0x454
  else if c.toNat = 0x490 then Char.ofNat 0x491
  else c

/-- `str.lower()` on a whole string. -/
def pyLower (s : PyStr) : PyStr := s.map pyLowerChar

theorem char_toNat_ofNat_valid {n : Nat} (h : n < 0xD800) :
    (Char.ofNat n).toNat = n := by
  have hv : n.isValidChar := Or.inl h
  simp [Char.ofNat, hv, Char.ofNatAux, Char.toNat, UInt32.toNat, BitVec.toNat_ofNatLt]

theorem pyLowerChar_eq_self (d : Char)
    (h1 : ¬(65 ≤ d.toNat ∧ d.toNat ≤ 90)) (h2 : ¬(0x410 ≤ d.toNat ∧ d.toNat ≤ 0x42F))
    (h3 : d.toNat ≠ 0x401) (h4 : d.toNat ≠ 0x406) (h5 : d.toNat ≠ 0x407)
    (h6 : d.toNat ≠ 0x404) (h7 : d.toNat ≠ 0x490) : pyLowerChar d = d := by
  unfold pyLowerChar
  simp [h1, h2, h3, h4, h5, h6, h7]

theorem pyLowerChar_lower_range (c : Char) :
    pyLowerChar c = c ∨
      ((97 ≤ (pyLowerChar c).toNat ∧ (pyLowerChar c).toNat ≤ 122) ∨
       (0x430 ≤ (pyLowerChar c).toNat ∧ (pyLowerChar c).toNat ≤ 0x45F) ∨
       (pyLowerChar c).toNat = 0x491) := by
  unfold pyLowerChar
  by_cases h1 : 65 ≤ c.toNat ∧ c.toNat ≤ 90
  · rw [if_pos h1]
    have e : (Char.ofNat (c.toNat + 32)).toNat = c.toNat + 32 :=
      char_toNat_ofNat_valid (by omega)
    right; left; omega
  · rw [if_neg h1]
    by_cases h2 : 0x410 ≤ c.toNat ∧ c.toNat ≤ 0x42F
    · rw [if_pos h2]
      have e : (Char.ofNat (c.toNat + 32)).toNat = c.toNat + 32 :=
        char_toNat_ofNat_valid (by omega)
      right; right; left; omega
    · rw [if_neg h2]
      by_cases h3 : c.toNat = 0x401
      · rw [if_pos h3]
        have e : (Char.ofNat 0x451).toNat = 0x451 := char_toNat_ofNat_valid (by omega)
        right; right; left; omega
      · rw [if_neg h3]
        by_cases h4 : c.toNat = 0x406
        · rw [if_pos h4]
          have e : (Char.ofNat 0x456).toNat = 0x456 := char_toNat_ofNat_valid (by omega)
          right; right; left; omega
        · rw [if_neg h4]
          by_cases h5 : c.toNat = 0x407
          · rw [if_pos h5]
            have e : (Char.ofNat 0x457).toNat = 0x457 := char_toNat_ofNat_valid (by omega)
            right; right; left; omega
          · rw [if_neg h5]
            by_cases h6 : c.toNat = 0x404
            · rw [if_pos h6]
              have e : (Char.ofNat 0x454).toNat = 0x454 := char_toNat_ofNat_valid (by omega)
              right; right; left; omega
            · rw [if_neg h6]
              by_cases h7 : c.toNat = 0x490
              · rw [if_pos h7]
                have e : (Char.ofNat 0x491).toNat = 0x491 := char_toNat_ofNat_valid (by omega)
                right; right; right; omega
              · rw [if_neg h7]
                left; rfl

theorem pyLowerChar_idem (c : Char) : pyLowerChar (pyLowerChar c) = pyLowerChar c := by
  rcases pyLowerChar_lower_range c with h | h
  · rw [h, h]
  · exact pyLowerChar_eq_self _ (by omega) (by omega) (by omega) (by omega) (by omega)
      (by omega) (by omega)

theorem pyLower_idem (s : PyStr) : pyLower (pyLower s) = pyLower s := by
  simp only [pyLower, List.map_map]
  exact List.map_congr_left (fun c _ => pyLowerChar_idem c)

/-- Python's `s[:k]` for an `int` bound `k`: a negative bound counts from the
end of the string and clamps at zero. -/
def pyTakeInt (s : PyStr) (k : Int) : PyStr :=
  if 0 ≤ k then s.take k.toNat else s.take (s.length - (-k).toNat)

/-- Split at the first occurrence of `sep`, Python `s.split(sep, 1)` when the
separator occurs; `none` when it does not. -/
def splitOnFirst (sep : Char) : PyStr → Option (PyStr × PyStr)
  | [] => none
  | c :: cs =>
    if c = sep then some ([], cs)
    else
      match splitOnFirst sep cs with
      | some (a, b) => some (c :: a, b)
      | none => none

theorem splitOnFirst_snd_length {sep : Char} :
    ∀ {s a b : PyStr}, splitOnFirst sep s = some (a, b) → b.length < s.length := by
  intro s
  induction s with
  | nil => intro a b h; simp [splitOnFirst] at h
  | cons c cs ih =>
    intro a b h
    by_cases hc : c = sep
    · simp [splitOnFirst, hc] at h
      simp [← h.2, List.length_cons]
    · simp only [splitOnFirst, if_neg hc] at h
      cases hsp : splitOnFirst sep cs with
      | none => rw [hsp] at h; simp at h
      | some p =>
        rw [hsp] at h
        cases p with
        | mk a' b' =>
          simp at h
          have := ih hsp
          simp [← h.2, List.length_cons]
          omega

/-- Accumulator worker for `pySplitChar`; `acc` holds the reversed current
piece. -/
def pySplitCharAux (sep : Char) : PyStr → PyStr → List PyStr
  | [], acc => [acc.reverse]
  | c :: cs, acc =>
    if c = sep then acc.reverse :: pySplitCharAux sep cs []
    else pySplitCharAux sep cs (c :: acc)

/-- Python `s.split(sep)` for a one-character separator (always returns at
least one piece; `''.split(sep) = ['']`). -/
def pySplitChar (sep : Char) (s : PyStr) : List PyStr := pySplitCharAux sep s []

/-- `'\n'.join(lines)`-style join with a one-character separator. -/
def intercalateChar (sep : Char) (ls : List PyStr) : PyStr :=
  List.intercalate [sep] ls

/-- Python `s.rstrip('/')`. -/
def rstripSlash (s : PyStr) : PyStr :=
  (s.reverse.dropWhile (· = '/')).reverse

/-- Python whitespace for `str.rstrip()` with no argument (ASCII portion). -/
def isPyWS (c : Char) : Bool :=
  c = ' ' ∨ c = '\t' ∨ c = '\n' ∨ c = '\r' ∨ c = '\x0b' ∨ c = '\x0c'

/-- Python `s.rstrip()`. -/
def rstripWS (s : PyStr) : PyStr :=
  (s.reverse.dropWhile isPyWS).reverse

theorem splitOnFirst_none {sep : Char} :
    ∀ {s : PyStr}, sep ∉ s → splitOnFirst sep s = none := by
  intro s
  induction s with
  | nil => intro _; rfl
  | cons c cs ih =>
    intro h
    have hc : c ≠ sep := fun e => h (e ▸ List.mem_cons_self c cs)
    have hcs : sep ∉ cs := fun m => h (List.mem_cons_of_mem c m)
    simp [splitOnFirst, hc, ih hcs]

theorem splitOnFirst_append_sep {sep : Char} :
    ∀ {a : PyStr}, sep ∉ a → ∀ b, splitOnFirst sep (a ++ sep :: b) = some (a, b) := by
  intro a
  induction a with
  | nil => intro _ b; simp [splitOnFirst]
  | cons c cs ih =>
    intro h b
    have hc : c ≠ sep := fun e => h (e ▸ List.mem_cons_self c cs)
    have hcs : sep ∉ cs := fun m => h (List.mem_cons_of_mem c m)
    simp [splitOnFirst, hc, ih hcs]

theorem pySplitCharAux_acc {sep : Char} :
    ∀ (s acc : PyStr), pySplitCharAux sep s acc =
      (acc.reverse ++ (pySplitCharAux sep s []).headI) :: (pySplitCharAux sep s []).tail := by
  intro s
  induction s with
  | nil =>
    intro acc
    simp [pySplitCharAux]
  | cons c cs ih =>
    intro acc
    by_cases hc : c = sep
    · simp [pySplitCharAux, hc]
    · have h1 : pySplitCharAux sep (c :: cs) acc = pySplitCharAux sep cs (c :: acc) := by
        simp [pySplitCharAux, hc]
      have h2 : pySplitCharAux sep (c :: cs) [] = pySplitCharAux sep cs [c] := by
        simp [pySplitCharAux, hc]
      rw [h1, h2, ih (c :: acc), ih [c]]
      simp

theorem pySplitChar_ne_nil (sep : Char) (s : PyStr) : pySplitChar sep s ≠ [] := by
  unfold pySplitChar
  rw [pySplitCharAux_acc s []]
  simp

theorem pySplitChar_cons_sep (sep : Char) (s : PyStr) :
    pySplitChar sep (sep :: s) = [] :: pySplitChar sep s := by
  simp [pySplitChar, pySplitCharAux]

theorem pySplitChar_cons_ne {sep c : Char} (h : c ≠ sep) (s : PyStr) {f : PyStr}
    {r : List PyStr} (hs : pySplitChar sep s = f :: r) :
    pySplitChar sep (c :: s) = (c :: f) :: r := by
  unfold pySplitChar at hs ⊢
  have h2 : pySplitCharAux sep (c :: s) [] = pySplitCharAux sep s [c] := by
    simp [pySplitCharAux, h]
  rw [h2, pySplitCharAux_acc s [c], hs]
  simp

theorem pySplitChar_no_sep {sep : Char} :
    ∀ {s : PyStr}, sep ∉ s → pySplitChar sep s = [s] := by
  intro s
  induction s with
  | nil => intro _; rfl
  | cons c cs ih =>
    intro h
    have hc : c ≠ sep := fun e => h (e ▸ List.mem_cons_self c cs)
    have hcs : sep ∉ cs := fun m => h (List.mem_cons_of_mem c m)
    exact pySplitChar_cons_ne hc cs (ih hcs)

theorem pySplitChar_append_sep {sep : Char} :
    ∀ {a : PyStr}, sep ∉ a → ∀ b, pySplitChar sep (a ++ sep :: b) = a :: pySplitChar sep b := by
  intro a
  induction a with
  | nil => intro _ b; exact pySplitChar_cons_sep sep b
  | cons c cs ih =>
    intro h b
    have hc : c ≠ sep := fun e => h (e ▸ List.mem_cons_self c cs)
    have hcs : sep ∉ cs := fun m => h (List.mem_cons_of_mem c m)
    exact pySplitChar_cons_ne hc _ (ih hcs b)

theorem pySplitChar_intercalate :
    ∀ (parts : List PyStr) (sep : Char), parts ≠ [] → (∀ p ∈ parts, sep ∉ p) →
      pySplitChar sep (intercalateChar sep parts) = parts := by
  intro parts
  induction parts with
  | nil => intro sep h _; exact absurd rfl h
  | cons p rest ih =>
    intro sep _ hall
    cases rest with
    | nil =>
      simp only [intercalateChar, List.intercalate]
      simp
      exact pySplitChar_no_sep (hall p (List.mem_cons_self p []))
    | cons q qs =>
      have hjoin : intercalateChar sep (p :: q :: qs) =
          p ++ sep :: intercalateChar sep (q :: qs) := by
        simp [intercalateChar, List.intercalate, List.intersperse]
      rw [hjoin, pySplitChar_append_sep (hall p (List.mem_cons_self p _)) _,
        ih sep (by simp) (fun r hr => hall r (List.mem_cons_of_mem p hr))]

/-- U+FFFD, the replacement character used by `bytes.decode('utf-8','replace')`. -/
def replChar : Char := Char.ofNat 0xFFFD

/-- UTF-8 encoding of one Unicode scalar value (`str.encode('utf-8')`). -/
def utf8EncodeChar (c : Char) : List Nat :=
  let v := c.toNat
  if v < 0x80 then [v]
  else if v < 0x800 then [0xC0 + v / 64, 0x80 + v % 64]
  else if v < 0x10000 then [0xE0 + v / 4096, 0x80 + v / 64 % 64, 0x80 + v % 64]
  else [0xF0 + v / 262144, 0x80 + v / 4096 % 64, 0x80 + v / 64 % 64, 0x80 + v % 64]

/-- UTF-8 encoding of a whole string. -/
def utf8Encode (s : PyStr) : List Nat := (s.map utf8EncodeChar).flatten

/-- A UTF-8 continuation byte. -/
def isCont (b : Nat) : Bool := 0x80 ≤ b ∧ b < 0xC0

/-- Valid range for the first continuation byte after a three-byte lead
(excludes overlong forms and surrogates, as CPython's decoder does). -/
def cont3ok (b b2 : Nat) : Bool :=
  if b = 0xE0 then 0xA0 ≤ b2 ∧ b2 ≤ 0xBF
  else if b = 0xED then 0x80 ≤ b2 ∧ b2 ≤ 0x9F
  else 0x80 ≤ b2 ∧ b2 ≤ 0xBF

/-- Valid range for the first continuation byte after a four-byte lead. -/
def cont4ok (b b2 : Nat) : Bool :=
  if b = 0xF0 then 0x90 ≤ b2 ∧ b2 ≤ 0xBF
  else if b = 0xF4 then 0x80 ≤ b2 ∧ b2 ≤ 0x8F
  else 0x80 ≤ b2 ∧ b2 ≤ 0xBF

/-- One step of `bytes.decode('utf-8', errors='replace')`: decode one
character (or one U+FFFD for a maximal invalid subpart) from the front.
`none` exactly on empty input. -/
def utf8DecodeStep : List Nat → Option (Char × List Nat)
  | [] => none
  | b :: bs =>
    if b < 0x80 then some (Char.ofNat b, bs)
    else if b < 0xC2 then some (replChar, bs)
    else if b < 0xE0 then
      match bs with
      | [] => some (replChar, [])
      | b2 :: bs2 =>
        if isCont b2 then some (Char.ofNat ((b - 0xC0) * 64 + (b2 - 0x80)), bs2)
        else some (replChar, b2 :: bs2)
    else if b < 0xF0 then
      match bs with
      | [] => some (replChar, [])
      | b2 :: bs2 =>
        if cont3ok b b2 then
          match bs2 with
          | [] => some (replChar, [])
          | b3 :: bs3 =>
            if isCont b3 then
              some (Char.ofNat ((b - 0xE0) * 4096 + (b2 - 0x80) * 64 + (b3 - 0x80)), bs3)
            else some (replChar, b3 :: bs3)
        else some (replChar, b2 :: bs2)
    else if b < 0xF5 then
      match bs with
      | [] => some (replChar, [])
      | b2 :: bs2 =>
        if cont4ok b b2 then
          match bs2 with
          | [] => some (replChar, [])
          | b3 :: bs3 =>
            if isCont b3 then
              match bs3 with
              | [] => some (replChar, [])
              | b4 :: bs4 =>
                if isCont b4 then
                  some (Char.ofNat ((b - 0xF0) * 262144 + (b2 - 0x80) * 4096 +
                      (b3 - 0x80) * 64 + (b4 - 0x80)), bs4)
                else some (replChar, b4 :: bs4)
            else some (replChar, b3 :: bs3)
        else some (replChar, b2 :: bs2)
    else some (replChar, bs)

/-- Fuel-indexed decoding loop; `fuel ≥ length` suffices since each step
consumes at least one byte. -/
def utf8DecodeLoop : Nat → List Nat → PyStr
  | 0, _ => []
  | fuel + 1, l =>
    match utf8DecodeStep l with
    | none => []
    | some (c, rest) => c :: utf8DecodeLoop fuel rest

/-- `bytes.decode('utf-8', errors='replace')`. -/
def utf8DecodeLossy (l : List Nat) : PyStr := utf8DecodeLoop l.length l

theorem utf8DecodeStep_shortens :
    ∀ {l : List Nat} {c rest}, utf8DecodeStep l = some (c, rest) →
      rest.length < l.length := by
  intro l c rest h
  match l with
  | [] => simp [utf8DecodeStep] at h
  | b :: bs =>
    unfold utf8DecodeStep at h
    repeat' split at h
    all_goals try (exact Option.noConfusion h)
    all_goals simp_all only [Option.some.injEq, Prod.mk.injEq, List.length_cons,
      List.length_nil]
    all_goals try omega

theorem utf8DecodeLoop_fuel :
    ∀ (n : Nat) (l : List Nat) (m k : Nat), l.length ≤ m → l.length ≤ k → l.length ≤ n →
      utf8DecodeLoop m l = utf8DecodeLoop k l := by
  intro n
  induction n with
  | zero =>
    intro l m k hm hk hn
    have : l = [] := List.length_eq_zero.mp (Nat.le_zero.mp hn)
    subst this
    match m, k with
    | 0, 0 => rfl
    | 0, k + 1 => simp [utf8DecodeLoop, utf8DecodeStep]
    | m + 1, 0 => simp [utf8DecodeLoop, utf8DecodeStep]
    | m + 1, k + 1 => simp [utf8DecodeLoop, utf8DecodeStep]
  | succ n ih =>
    intro l m k hm hk hn
    match l with
    | [] =>
      match m, k with
      | 0, 0 => rfl
      | 0, k + 1 => simp [utf8DecodeLoop, utf8DecodeStep]
      | m + 1, 0 => simp [utf8DecodeLoop, utf8DecodeStep]
      | m + 1, k + 1 => simp [utf8DecodeLoop, utf8DecodeStep]
    | b :: bs =>
      match m, k with
      | 0, _ =>
        exfalso
        simp only [List.length_cons] at hm
        omega
      | m + 1, 0 =>
        exfalso
        simp only [List.length_cons] at hk
        omega
      | m + 1, k + 1 =>
        simp only [utf8DecodeLoop]
        cases hs : utf8DecodeStep (b :: bs) with
        | none => rfl
        | some p =>
          match p with
          | (c, rest) =>
            have hlt := utf8DecodeStep_shortens hs
            simp only [List.length_cons] at hm hk hn hlt
            show c :: utf8DecodeLoop m rest = c :: utf8DecodeLoop k rest
            congr 1
            exact ih rest m k (by omega) (by omega) (by omega)

theorem utf8DecodeLossy_cons_step {l : List Nat} {c : Char} {rest : List Nat}
    (h : utf8DecodeStep l = some (c, rest)) :
    utf8DecodeLossy l = c :: utf8DecodeLossy rest := by
  have hlt := utf8DecodeStep_shortens h
  unfold utf8DecodeLossy
  match l with
  | [] => simp [utf8DecodeStep] at h
  | b :: bs =>
    simp only [List.length_cons, utf8DecodeLoop, h]
    congr 1
    apply utf8DecodeLoop_fuel bs.length rest
    · simp only [List.length_cons] at hlt
      omega
    · exact le_refl _
    · simp only [List.length_cons] at hlt
      omega

theorem char_toNat_valid (c : Char) :
    c.toNat < 0xD800 ∨ (0xE000 ≤ c.toNat ∧ c.toNat < 0x110000) := by
  have h := c.valid
  simp [UInt32.isValidChar, Nat.isValidChar] at h
  exact h

theorem utf8EncodeChar_step (c : Char) (rest : List Nat) :
    utf8DecodeStep (utf8EncodeChar c ++ rest) = some (c, rest) := by
  have hvr := char_toNat_valid c
  have hofnat := Char.ofNat_toNat c
  set v := c.toNat with hv
  by_cases h1 : v < 0x80
  · have henc : utf8EncodeChar c = [v] := by simp [utf8EncodeChar, ← hv, h1]
    rw [henc]
    simp [utf8DecodeStep, h1, hofnat]
  · by_cases h2 : v < 0x800
    · have henc : utf8EncodeChar c = [0xC0 + v / 64, 0x80 + v % 64] := by
        simp [utf8EncodeChar, ← hv, h1, h2]
      rw [henc]
      have hb1a : ¬ (0xC0 + v / 64 < 0x80) := by omega
      have hb1b : ¬ (0xC0 + v / 64 < 0xC2) := by omega
      have hb1c : 0xC0 + v / 64 < 0xE0 := by omega
      have hc2 : isCont (0x80 + v % 64) = true := by simp [isCont]; omega
      simp [utf8DecodeStep, hb1a, hb1b, hb1c, hc2]
      rw [← hofnat]
      congr 1
      omega
    · by_cases h3 : v < 0x10000
      · have henc : utf8EncodeChar c =
            [0xE0 + v / 4096, 0x80 + v / 64 % 64, 0x80 + v % 64] := by
          simp [utf8EncodeChar, ← hv, h1, h2, h3]
        rw [henc]
        have hb1a : ¬ (0xE0 + v / 4096 < 0x80) := by omega
        have hb1b : ¬ (0xE0 + v / 4096 < 0xC2) := by omega
        have hb1c : ¬ (0xE0 + v / 4096 < 0xE0) := by omega
        have hb1d : 0xE0 + v / 4096 < 0xF0 := by omega
        have hc2 : cont3ok (0xE0 + v / 4096) (0x80 + v / 64 % 64) = true := by
          unfold cont3ok
          by_cases he0 : 0xE0 + v / 4096 = 0xE0
          · rw [if_pos he0]
            simp only [decide_eq_true_eq]
            omega
          · rw [if_neg he0]
            by_cases hed : 0xE0 + v / 4096 = 0xED
            · rw [if_pos hed]
              simp only [decide_eq_true_eq]
              rcases hvr with hlt | hge
              · omega
              · omega
            · rw [if_neg hed]
              simp only [decide_eq_true_eq]
              omega
        have hc3 : isCont (0x80 + v % 64) = true := by simp [isCont]; omega
        simp [utf8DecodeStep, hb1a, hb1b, hb1c, hb1d, hc2, hc3]
        rw [← hofnat]
        congr 1
        omega
      · have hlt : v < 0x110000 := by rcases hvr with hlt | hge <;> omega
        have henc : utf8EncodeChar c =
            [0xF0 + v / 262144, 0x80 + v / 4096 % 64, 0x80 + v / 64 % 64, 0x80 + v % 64] := by
          simp [utf8EncodeChar, ← hv, h1, h2, h3]
        rw [henc]
        have hb1a : ¬ (0xF0 + v / 262144 < 0x80) := by omega
        have hb1b : ¬ (0xF0 + v / 262144 < 0xC2) := by omega
        have hb1c : ¬ (0xF0 + v / 262144 < 0xE0) := by omega
        have hb1d : ¬ (0xF0 + v / 262144 < 0xF0) := by omega
        have hb1e : 0xF0 + v / 262144 < 0xF5 := by omega
        have hc2 : cont4ok (0xF0 + v / 262144) (0x80 + v / 4096 % 64) = true := by
          unfold cont4ok
          by_cases hf0 : 0xF0 + v / 262144 = 0xF0
          · rw [if_pos hf0]
            simp only [decide_eq_true_eq]
            omega
          · rw [if_neg hf0]
            by_cases hf4 : 0xF0 + v / 262144 = 0xF4
            · rw [if_pos hf4]
              simp only [decide_eq_true_eq]
              omega
            · rw [if_neg hf4]
              simp only [decide_eq_true_eq]
              omega
        have hc3 : isCont (0x80 + v / 64 % 64) = true := by simp [isCont]; omega
        have hc4 : isCont (0x80 + v % 64) = true := by simp [isCont]; omega
        simp [utf8DecodeStep, hb1a, hb1b, hb1c, hb1d, hb1e, hc2, hc3, hc4]
        rw [← hofnat]
        congr 1
        omega

theorem utf8DecodeLossy_encode (s : PyStr) : utf8DecodeLossy (utf8Encode s) = s := by
  induction s with
  | nil => rfl
  | cons c cs ih =>
    have henc : utf8Encode (c :: cs) = utf8EncodeChar c ++ utf8Encode cs := by
      simp [utf8Encode]
    rw [henc, utf8DecodeLossy_cons_step (utf8EncodeChar_step c (utf8Encode cs)), ih]

/-- Code points of `urllib.parse._ALWAYS_SAFE`: bytes `quote` never escapes. -/
def ALWAYS_SAFE : List Nat :=
  (pys "ABCDEFGHIJKLMNOPQRSTUVWXYZabcdefghijklmnopqrstuvwxyz0123456789_.-~").map Char.toNat

/-- Upper-case hexadecimal digit, as produced by `'%{:02X}'.format(b)`. -/
def hexUpper (n : Nat) : Char := (pys "0123456789ABCDEF").getD n '0'

/-- `urllib.parse._Quoter.__missing__`: one byte of `quote_from_bytes` output. -/
def quoteByte (safe : List Nat) (b : Nat) : PyStr :=
  if b ∈ ALWAYS_SAFE ∨ b ∈ safe then [Char.ofNat b]
  else ['%', hexUpper (b / 16), hexUpper (b % 16)]

/-- `urllib.parse.quote_from_bytes(bs, safe)`. -/
def quoteFromBytes (safe : List Nat) (bs : List Nat) : PyStr :=
  (bs.map (quoteByte safe)).flatten

/-- `urllib.parse.quote(s, safe)` on a `str`: UTF-8 encode then escape. -/
def pyQuote (safe : List Nat) (s : PyStr) : PyStr := quoteFromBytes safe (utf8Encode s)

/-- `urllib.parse.quote_plus(s)` with the empty `safe` set `urlencode` uses:
if the string contains a space, quote with space safe then turn spaces into
`+`; otherwise plain `quote`. -/
def pyQuotePlus (s : PyStr) : PyStr :=
  if ' ' ∈ s then (pyQuote [32] s).map (fun c => if c = ' ' then '+' else c)
  else pyQuote [] s

/-- The hex digits `urllib.parse._hexdig` accepts (both cases). -/
def isHexDigitPy (c : Char) : Bool :=
  (48 ≤ c.toNat ∧ c.toNat ≤ 57) ∨ (97 ≤ c.toNat ∧ c.toNat ≤ 102) ∨
    (65 ≤ c.toNat ∧ c.toNat ≤ 70)

/-- Numeric value of a hex digit. -/
def hexVal (c : Char) : Nat :=
  if c.toNat ≤ 57 then c.toNat - 48
  else if c.toNat ≤ 70 then c.toNat - 55
  else c.toNat - 87

/-- `urllib.parse.unquote_to_bytes` restricted to ASCII input (the only way
`unquote` invokes it): split on `%`, decode a two-hex-digit pair after each
`%`, keep a literal `%` otherwise. -/
def unquoteToBytes (s : PyStr) : List Nat :=
  match pySplitChar '%' s with
  | [] => []
  | first :: rest =>
    first.map Char.toNat ++
      (rest.map fun item =>
        match item with
        | c1 :: c2 :: tail =>
          if isHexDigitPy c1 ∧ isHexDigitPy c2 then
            (16 * hexVal c1 + hexVal c2) :: tail.map Char.toNat
          else '%'.toNat :: item.map Char.toNat
        | _ => '%'.toNat :: item.map Char.toNat).flatten

/-- An ASCII character (the `_asciire` character class of `unquote`). -/
def isAsciiCh (c : Char) : Bool := c.toNat < 128

/-- Split a string into maximal runs of ASCII / non-ASCII characters, tagged
with `true` for the ASCII runs — the grouping `_asciire.split` performs. -/
def splitRuns : PyStr → List (Bool × PyStr)
  | [] => []
  | c :: cs =>
    match splitRuns cs with
    | [] => [(isAsciiCh c, [c])]
    | (b, run) :: rest =>
      if b = isAsciiCh c then (b, c :: run) :: rest
      else (isAsciiCh c, [c]) :: (b, run) :: rest

/-- `urllib.parse.unquote(s)` with UTF-8 / `errors='replace'`: percent-decode
each maximal ASCII run, pass non-ASCII runs through. -/
def pyUnquote (s : PyStr) : PyStr :=
  ((splitRuns s).map fun br =>
    if br.1 then utf8DecodeLossy (unquoteToBytes br.2) else br.2).flatten

/-- Python `s.replace(a, b)` for single characters. -/
def pyReplaceChar (a b : Char) (s : PyStr) : PyStr :=
  s.map (fun c => if c = a then b else c)

/-- The `+`-to-space then `unquote` treatment `parse_qsl` applies to each
name and value. -/
def unqPart (s : PyStr) : PyStr := pyUnquote (pyReplaceChar '+' ' ' s)

/-- One `name=value` field of `parse_qsl` (with `keep_blank_values=True`):
empty fields are skipped, a missing `=` yields a blank value. -/
def qslPair (nv : PyStr) : Option (PyStr × PyStr) :=
  if nv = [] then none
  else
    match splitOnFirst '=' nv with
    | some (k, v) => some (unqPart k, unqPart v)
    | none => some (unqPart nv, unqPart [])

/-- `urllib.parse.parse_qsl(qs, keep_blank_values=True)`. -/
def pyParseQsl (qs : PyStr) : List (PyStr × PyStr) :=
  let args := if qs = [] then [] else pySplitChar '&' qs
  args.filterMap qslPair

/-- `urllib.parse.urlencode(q, doseq=True)` on string pairs: quote-plus each
side, join `k=v` parts with `&`. -/
def pyUrlencode (q : List (PyStr × PyStr)) : PyStr :=
  intercalateChar '&' (q.map fun kv => pyQuotePlus kv.1 ++ '=' :: pyQuotePlus kv.2)

theorem unquoteToBytes_cons_ne {c : Char} (h : c ≠ '%') (s : PyStr) :
    unquoteToBytes (c :: s) = c.toNat :: unquoteToBytes s := by
  obtain ⟨f, r, hs⟩ : ∃ f r, pySplitChar '%' s = f :: r := by
    cases hq : pySplitChar '%' s with
    | nil => exact absurd hq (pySplitChar_ne_nil '%' s)
    | cons f r => exact ⟨f, r, rfl⟩
  unfold unquoteToBytes
  rw [pySplitChar_cons_ne h s hs, hs]
  simp

theorem unquoteToBytes_pct {h1 h2 : Char} (hh1 : isHexDigitPy h1 = true)
    (hh2 : isHexDigitPy h2 = true) (s : PyStr) :
    unquoteToBytes ('%' :: h1 :: h2 :: s) =
      (16 * hexVal h1 + hexVal h2) :: unquoteToBytes s := by
  have hn1 : h1 ≠ '%' := by
    intro e
    rw [e] at hh1
    simp [isHexDigitPy] at hh1
  have hn2 : h2 ≠ '%' := by
    intro e
    rw [e] at hh2
    simp [isHexDigitPy] at hh2
  obtain ⟨f, r, hs⟩ : ∃ f r, pySplitChar '%' s = f :: r := by
    cases hq : pySplitChar '%' s with
    | nil => exact absurd hq (pySplitChar_ne_nil '%' s)
    | cons f r => exact ⟨f, r, rfl⟩
  have hx2 : pySplitChar '%' (h2 :: s) = (h2 :: f) :: r := pySplitChar_cons_ne hn2 s hs
  have hx1 : pySplitChar '%' (h1 :: h2 :: s) = (h1 :: h2 :: f) :: r :=
    pySplitChar_cons_ne hn1 (h2 :: s) hx2
  unfold unquoteToBytes
  rw [pySplitChar_cons_sep '%' (h1 :: h2 :: s), hx1, hs]
  simp [hh1, hh2]

theorem always_safe_facts : ∀ b ∈ ALWAYS_SAFE, b < 128 ∧ b ≠ 37 := by decide

theorem hexUpper_facts : ∀ n < 16, isHexDigitPy (hexUpper n) = true ∧
    hexVal (hexUpper n) = n ∧ (hexUpper n).toNat ∈ ALWAYS_SAFE := by decide

theorem char_ofNat_ne_pct {b : Nat} (hb : b < 128) (hne : b ≠ 37) :
    Char.ofNat b ≠ '%' := by
  intro e
  have h1 : (Char.ofNat b).toNat = b := char_toNat_ofNat_valid (by omega)
  rw [e] at h1
  have h2 : ('%').toNat = 37 := rfl
  rw [h2] at h1
  omega

theorem unquoteToBytes_quoteFromBytes {safe : List Nat}
    (hsafe : ∀ x ∈ safe, x < 128 ∧ x ≠ 37) :
    ∀ bs : List Nat, (∀ b ∈ bs, b < 256) →
      unquoteToBytes (quoteFromBytes safe bs) = bs := by
  intro bs
  induction bs with
  | nil =>
    intro _
    have h0 : pySplitChar '%' ([] : PyStr) = [[]] := pySplitChar_no_sep (by simp)
    simp [quoteFromBytes, unquoteToBytes, h0]
  | cons b rest ih =>
    intro hb
    have hb256 : b < 256 := hb b (List.mem_cons_self b rest)
    have hrest : ∀ x ∈ rest, x < 256 := fun x hx => hb x (List.mem_cons_of_mem b hx)
    have hflat : quoteFromBytes safe (b :: rest) =
        quoteByte safe b ++ quoteFromBytes safe rest := by
      simp [quoteFromBytes]
    rw [hflat]
    unfold quoteByte
    by_cases hmem : b ∈ ALWAYS_SAFE ∨ b ∈ safe
    · rw [if_pos hmem]
      have hb128 : b < 128 ∧ b ≠ 37 := by
        rcases hmem with hm | hm
        · exact always_safe_facts b hm
        · exact hsafe b hm
      have : Char.ofNat b ≠ '%' := char_ofNat_ne_pct hb128.1 hb128.2
      rw [List.cons_append, List.nil_append, unquoteToBytes_cons_ne this, ih hrest,
        char_toNat_ofNat_valid (by omega : b < 0xD800)]
    · rw [if_neg hmem]
      have hdiv : b / 16 < 16 := by omega
      have hmod : b % 16 < 16 := by omega
      obtain ⟨hh1, hv1, _⟩ := hexUpper_facts (b / 16) hdiv
      obtain ⟨hh2, hv2, _⟩ := hexUpper_facts (b % 16) hmod
      rw [List.cons_append, List.cons_append, List.cons_append, List.nil_append,
        unquoteToBytes_pct hh1 hh2, ih hrest, hv1, hv2]
      congr 1
      omega

theorem hexUpper_mem_always (n : Nat) : (hexUpper n).toNat ∈ ALWAYS_SAFE := by
  by_cases h : n < 16
  · interval_cases n <;> decide
  · have hlen : (pys "0123456789ABCDEF").length = 16 := by rfl
    unfold hexUpper
    rw [List.getD_eq_default _ _ (by omega)]
    decide

theorem quoteFromBytes_chars {safe : List Nat} (hsafe : ∀ x ∈ safe, x < 128) :
    ∀ {bs : List Nat} {c : Char}, c ∈ quoteFromBytes safe bs →
      c.toNat ∈ ALWAYS_SAFE ∨ c.toNat = 37 ∨ c.toNat ∈ safe := by
  intro bs
  induction bs with
  | nil => intro c hc; simp [quoteFromBytes] at hc
  | cons b rest ih =>
    intro c hc
    have hflat : quoteFromBytes safe (b :: rest) =
        quoteByte safe b ++ quoteFromBytes safe rest := by
      simp [quoteFromBytes]
    rw [hflat, List.mem_append] at hc
    rcases hc with hc | hc
    · unfold quoteByte at hc
      by_cases hmem : b ∈ ALWAYS_SAFE ∨ b ∈ safe
      · rw [if_pos hmem] at hc
        simp at hc
        have hb128 : b < 128 := by
          rcases hmem with hm | hm
          · exact (always_safe_facts b hm).1
          · exact hsafe b hm
        rw [hc, char_toNat_ofNat_valid (by omega : b < 0xD800)]
        rcases hmem with hm | hm
        · exact Or.inl hm
        · exact Or.inr (Or.inr hm)
      · rw [if_neg hmem] at hc
        simp at hc
        rcases hc with hc | hc | hc
        · right; left
          rw [hc]
          rfl
        · left
          rw [hc]
          exact hexUpper_mem_always (b / 16)
        · left
          rw [hc]
          exact hexUpper_mem_always (b % 16)
    · exact ih hc

theorem utf8EncodeChar_forms (c : Char) :
    (c.toNat < 0x80 ∧ utf8EncodeChar c = [c.toNat]) ∨
    (0x80 ≤ c.toNat ∧ c.toNat < 0x800 ∧
      utf8EncodeChar c = [0xC0 + c.toNat / 64, 0x80 + c.toNat % 64]) ∨
    (0x800 ≤ c.toNat ∧ c.toNat < 0x10000 ∧
      utf8EncodeChar c =
        [0xE0 + c.toNat / 4096, 0x80 + c.toNat / 64 % 64, 0x80 + c.toNat % 64]) ∨
    (0x10000 ≤ c.toNat ∧ c.toNat < 0x110000 ∧
      utf8EncodeChar c = [0xF0 + c.toNat / 262144, 0x80 + c.toNat / 4096 % 64,
        0x80 + c.toNat / 64 % 64, 0x80 + c.toNat % 64]) := by
  have hvr := char_toNat_valid c
  by_cases h1 : c.toNat < 0x80
  · exact Or.inl ⟨h1, by simp [utf8EncodeChar, h1]⟩
  · by_cases h2 : c.toNat < 0x800
    · exact Or.inr (Or.inl ⟨by omega, h2, by simp [utf8EncodeChar, h1, h2]⟩)
    · by_cases h3 : c.toNat < 0x10000
      · exact Or.inr (Or.inr (Or.inl ⟨by omega, h3, by simp [utf8EncodeChar, h1, h2, h3]⟩))
      · exact Or.inr (Or.inr (Or.inr ⟨by omega, by omega,
          by simp [utf8EncodeChar, h1, h2, h3]⟩))

theorem utf8EncodeChar_lt_256 (c : Char) : ∀ b ∈ utf8EncodeChar c, b < 256 := by
  intro b hb
  rcases utf8EncodeChar_forms c with ⟨h, he⟩ | ⟨h, h2, he⟩ | ⟨h, h2, he⟩ | ⟨h, h2, he⟩ <;>
    rw [he] at hb <;> simp at hb <;>
    first
    | omega
    | (rcases hb with hb | hb <;> omega)
    | (rcases hb with hb | hb | hb <;> omega)
    | (rcases hb with hb | hb | hb | hb <;> omega)

theorem utf8Encode_lt_256 (s : PyStr) : ∀ b ∈ utf8Encode s, b < 256 := by
  intro b hb
  simp only [utf8Encode, List.mem_flatten, List.mem_map] at hb
  obtain ⟨l, ⟨c, hc, hl⟩, hbl⟩ := hb
  exact utf8EncodeChar_lt_256 c b (hl ▸ hbl)

theorem utf8EncodeChar_ne_nil (c : Char) : utf8EncodeChar c ≠ [] := by
  rcases utf8EncodeChar_forms c with ⟨h, he⟩ | ⟨h, h2, he⟩ | ⟨h, h2, he⟩ | ⟨h, h2, he⟩ <;>
    rw [he] <;> simp

theorem splitRuns_ascii :
    ∀ {s : PyStr}, s ≠ [] → (∀ c ∈ s, isAsciiCh c = true) → splitRuns s = [(true, s)] := by
  intro s
  induction s with
  | nil => intro h _; exact absurd rfl h
  | cons c cs ih =>
    intro _ hall
    have hc : isAsciiCh c = true := hall c (List.mem_cons_self c cs)
    cases cs with
    | nil => simp [splitRuns, hc]
    | cons d ds =>
      have hrec : splitRuns (d :: ds) = [(true, d :: ds)] :=
        ih (by simp) (fun x hx => hall x (List.mem_cons_of_mem c hx))
      have hstep : splitRuns (c :: d :: ds) =
          match splitRuns (d :: ds) with
          | [] => [(isAsciiCh c, [c])]
          | (b, run) :: rest =>
            if b = isAsciiCh c then (b, c :: run) :: rest
            else (isAsciiCh c, [c]) :: (b, run) :: rest := rfl
      rw [hstep, hrec, hc]
      simp

theorem pyQuote_ascii {safe : List Nat} (hsafe : ∀ x ∈ safe, x < 128) {s : PyStr} :
    ∀ c ∈ pyQuote safe s, isAsciiCh c = true := by
  intro c hc
  have h := quoteFromBytes_chars hsafe hc
  simp only [isAsciiCh, decide_eq_true_eq]
  rcases h with h | h | h
  · have := (always_safe_facts _ h).1
    omega
  · omega
  · have := hsafe _ h
    omega

theorem pyUnquote_pyQuote {safe : List Nat} (hsafe : ∀ x ∈ safe, x < 128 ∧ x ≠ 37)
    (s : PyStr) : pyUnquote (pyQuote safe s) = s := by
  by_cases hs : s = []
  · subst hs
    rfl
  · have hne : pyQuote safe s ≠ [] := by
      unfold pyQuote quoteFromBytes
      intro hcontra
      have : utf8Encode s = [] ∨ ∀ l ∈ (utf8Encode s).map (quoteByte safe), l = [] := by
        rcases List.flatten_eq_nil_iff.mp hcontra with h
        right
        exact h
      rcases this with h | h
      · cases s with
        | nil => exact hs rfl
        | cons c cs =>
          have : utf8Encode (c :: cs) = utf8EncodeChar c ++ utf8Encode cs := by
            simp [utf8Encode]
          rw [this] at h
          exact utf8EncodeChar_ne_nil c (List.append_eq_nil.mp h).1
      · cases s with
        | nil => exact hs rfl
        | cons c cs =>
          have hmem : quoteByte safe (utf8EncodeChar c).headI ∈
              (utf8Encode (c :: cs)).map (quoteByte safe) := by
            apply List.mem_map_of_mem
            have henc : utf8Encode (c :: cs) = utf8EncodeChar c ++ utf8Encode cs := by
              simp [utf8Encode]
            rw [henc]
            apply List.mem_append_left
            cases hec : utf8EncodeChar c with
            | nil => exact absurd hec (utf8EncodeChar_ne_nil c)
            | cons x xs => simp
          have := h _ hmem
          unfold quoteByte at this
          split at this <;> simp at this
    have hruns : splitRuns (pyQuote safe s) = [(true, pyQuote safe s)] :=
      splitRuns_ascii hne (pyQuote_ascii (fun x hx => (hsafe x hx).1))
    unfold pyUnquote
    rw [hruns]
    simp only [List.map_cons, List.map_nil, List.flatten, if_true, List.append_nil]
    unfold pyQuote
    rw [unquoteToBytes_quoteFromBytes hsafe (utf8Encode s) (utf8Encode_lt_256 s)]
    simp [utf8DecodeLossy_encode]

theorem char_eq_of_toNat_eq {a b : Char} (h : a.toNat = b.toNat) : a = b := by
  rw [← Char.ofNat_toNat a, ← Char.ofNat_toNat b, h]

theorem list_map_id_of {α : Type} (f : α → α) :
    ∀ (l : List α), (∀ c ∈ l, f c = c) → l.map f = l := by
  intro l
  induction l with
  | nil => intro _; rfl
  | cons c cs ih =>
    intro h
    simp only [List.map_cons]
    rw [h c (List.mem_cons_self c cs), ih (fun x hx => h x (List.mem_cons_of_mem c hx))]

theorem pyQuotePlus_chars {s : PyStr} :
    ∀ c ∈ pyQuotePlus s, c.toNat ∈ ALWAYS_SAFE ∨ c.toNat = 37 ∨ c.toNat = 43 := by
  intro c hc
  unfold pyQuotePlus at hc
  by_cases hsp : ' ' ∈ s
  · rw [if_pos hsp] at hc
    simp only [List.mem_map] at hc
    obtain ⟨c0, hc0, hmap⟩ := hc
    have h := quoteFromBytes_chars
      (show ∀ x ∈ ([32] : List Nat), x < 128 by intro x hx; simp at hx; omega) hc0
    by_cases he : c0 = ' '
    · rw [if_pos he] at hmap
      right; right
      rw [← hmap]
      rfl
    · rw [if_neg he] at hmap
      rw [← hmap]
      rcases h with h | h | h
      · exact Or.inl h
      · exact Or.inr (Or.inl h)
      · exfalso
        simp at h
        exact he (char_eq_of_toNat_eq (by rw [h]; rfl))
  · rw [if_neg hsp] at hc
    have h := quoteFromBytes_chars (show ∀ x ∈ ([] : List Nat), x < 128 by simp) hc
    rcases h with h | h | h
    · exact Or.inl h
    · exact Or.inr (Or.inl h)
    · simp at h

theorem unqPart_pyQuotePlus (s : PyStr) : unqPart (pyQuotePlus s) = s := by
  unfold unqPart pyQuotePlus
  by_cases hsp : ' ' ∈ s
  · rw [if_pos hsp]
    have hplus : ∀ c ∈ pyQuote [32] s, c ≠ '+' := by
      intro c hc he
      have h := quoteFromBytes_chars
        (show ∀ x ∈ ([32] : List Nat), x < 128 by intro x hx; simp at hx; omega) hc
      rw [he] at h
      revert h
      decide
    have hcomp : pyReplaceChar '+' ' '
        ((pyQuote [32] s).map (fun c => if c = ' ' then '+' else c)) = pyQuote [32] s := by
      unfold pyReplaceChar
      rw [List.map_map]
      apply list_map_id_of
      intro c hc
      simp only [Function.comp]
      by_cases he : c = ' '
      · rw [if_pos he, if_pos rfl, he]
      · rw [if_neg he, if_neg (hplus c hc)]
    rw [hcomp]
    exact pyUnquote_pyQuote (by intro x hx; simp at hx; omega) s
  · rw [if_neg hsp]
    have hplus : ∀ c ∈ pyQuote [] s, c ≠ '+' := by
      intro c hc he
      have h := quoteFromBytes_chars (show ∀ x ∈ ([] : List Nat), x < 128 by simp) hc
      rw [he] at h
      revert h
      decide
    have hid : pyReplaceChar '+' ' ' (pyQuote [] s) = pyQuote [] s := by
      unfold pyReplaceChar
      apply list_map_id_of
      intro c hc
      rw [if_neg (hplus c hc)]
    rw [hid]
    exact pyUnquote_pyQuote (by simp) s

theorem pyQuotePlus_no_amp {s : PyStr} : '&' ∉ pyQuotePlus s := by
  intro h
  have := pyQuotePlus_chars '&' h
  revert this
  decide

theorem pyQuotePlus_no_eq {s : PyStr} : '=' ∉ pyQuotePlus s := by
  intro h
  have := pyQuotePlus_chars '=' h
  revert this
  decide

theorem intercalateChar_ne_nil {sep : Char} {x : PyStr} {rest : List PyStr}
    (hx : x ≠ []) : intercalateChar sep (x :: rest) ≠ [] := by
  cases rest with
  | nil => simpa [intercalateChar, List.intercalate] using hx
  | cons y ys =>
    have : intercalateChar sep (x :: y :: ys) = x ++ sep :: intercalateChar sep (y :: ys) := by
      simp [intercalateChar, List.intercalate, List.intersperse]
    rw [this]
    intro hcontra
    exact hx (List.append_eq_nil.mp hcontra).1

theorem pyParseQsl_pyUrlencode (q : List (PyStr × PyStr)) :
    pyParseQsl (pyUrlencode q) = q := by
  cases q with
  | nil =>
    simp [pyUrlencode, intercalateChar, List.intercalate, pyParseQsl]
  | cons p ps =>
    have henc : ∀ kv : PyStr × PyStr,
        qslPair (pyQuotePlus kv.1 ++ '=' :: pyQuotePlus kv.2) = some kv := by
      intro kv
      have hne : pyQuotePlus kv.1 ++ '=' :: pyQuotePlus kv.2 ≠ [] := by simp
      unfold qslPair
      rw [if_neg hne, splitOnFirst_append_sep pyQuotePlus_no_eq _]
      show some (unqPart (pyQuotePlus kv.1), unqPart (pyQuotePlus kv.2)) = some kv
      rw [unqPart_pyQuotePlus, unqPart_pyQuotePlus]
    have hfree : ∀ part ∈ (p :: ps).map (fun kv => pyQuotePlus kv.1 ++ '=' :: pyQuotePlus kv.2),
        '&' ∉ part := by
      intro part hpart hamp
      simp only [List.mem_map] at hpart
      obtain ⟨kv, _, hkv⟩ := hpart
      rw [← hkv] at hamp
      rcases List.mem_append.mp hamp with h | h
      · exact pyQuotePlus_no_amp h
      · rcases List.mem_cons.mp h with h | h
        · exact absurd h.symm (by decide)
        · exact pyQuotePlus_no_amp h
    have hqs_ne : pyUrlencode (p :: ps) ≠ [] := by
      unfold pyUrlencode
      simp only [List.map_cons]
      exact intercalateChar_ne_nil (by simp)
    unfold pyParseQsl
    rw [if_neg hqs_ne]
    unfold pyUrlencode
    rw [pySplitChar_intercalate _ '&' (by simp) hfree]
    rw [List.filterMap_map]
    have hall : ∀ l : List (PyStr × PyStr),
        List.filterMap (qslPair ∘ fun kv => pyQuotePlus kv.1 ++ '=' :: pyQuotePlus kv.2) l
          = l := by
      intro l
      induction l with
      | nil => rfl
      | cons x xs ih =>
        simp only [List.filterMap_cons, Function.comp]
        rw [henc x, ih]
    exact hall (p :: ps)

/-- `urllib.parse.scheme_chars`. -/
def schemeChars : List Char :=
  pys "abcdefghijklmnopqrstuvwxyzABCDEFGHIJKLMNOPQRSTUVWXYZ0123456789+-."

/-- `url[0].isascii() and url[0].isalpha()`. -/
def isAsciiAlpha (c : Char) : Bool :=
  (65 ≤ c.toNat ∧ c.toNat ≤ 90) ∨ (97 ≤ c.toNat ∧ c.toNat ≤ 122)

/-- The scheme-extraction step of `urlsplit`: if a colon follows a valid
scheme prefix whose first character is an ASCII letter, split it off
(lower-cased); otherwise leave the URL alone with an empty scheme. -/
def splitScheme (u : PyStr) : PyStr × PyStr :=
  match u.findIdx? (· = ':') with
  | some i =>
    if 0 < i ∧ u.head?.elim false isAsciiAlpha = true
        ∧ (u.take i).all (· ∈ schemeChars) = true then
      (pyLower (u.take i), u.drop (i + 1))
    else ([], u)
  | none => ([], u)

/-- Delimiters ending the netloc in `_splitnetloc`. -/
def netlocDelim (c : Char) : Bool := c = '/' ∨ c = '?' ∨ c = '#'

/-- `_WHATWG_C0_CONTROL_OR_SPACE`, stripped from the left of the URL. -/
def whatwgStrip (c : Char) : Bool := c.toNat ≤ 32

/-- `_UNSAFE_URL_BYTES_TO_REMOVE`, removed everywhere in the URL. -/
def unsafeRemove (c : Char) : Bool := c = '\t' ∨ c = '\r' ∨ c = '\n'

/-- The five components `urlsplit` returns. -/
structure SplitResult where
  scheme : PyStr
  netloc : PyStr
  path : PyStr
  query : PyStr
  fragment : PyStr
deriving DecidableEq, Repr

/-- `urllib.parse.urlsplit` (CPython 3.11) with `allow_fragments=True`.
`nfkc netloc = true` models `_checknetloc` raising for a non-ASCII netloc
whose NFKC normalisation introduces a delimiter; it is an oracle parameter
because NFKC tables are outside the embedding, and every theorem below
holds for an arbitrary oracle.  The bracket (IPv6) `ValueError` is modelled
exactly. -/
def urlsplitE (nfkc : PyStr → Bool) (url0 : PyStr) : Except Unit SplitResult :=
  let u1 := url0.dropWhile whatwgStrip
  let u2 := u1.filter (fun c => ¬ unsafeRemove c)
  let sp := splitScheme u2
  let scheme := sp.1
  let u3 := sp.2
  if u3.take 2 = pys "//" then
    let netloc := (u3.drop 2).takeWhile (fun c => ¬ netlocDelim c)
    let u4 := (u3.drop 2).dropWhile (fun c => ¬ netlocDelim c)
    if ('[' ∈ netloc ∧ ']' ∉ netloc) ∨ (']' ∈ netloc ∧ '[' ∉ netloc) then .error ()
    else if nfkc netloc then .error ()
    else
      let fp := match splitOnFirst '#' u4 with
        | some (a, b) => (a, b)
        | none => (u4, [])
      let qp := match splitOnFirst '?' fp.1 with
        | some (a, b) => (a, b)
        | none => (fp.1, [])
      .ok ⟨scheme, netloc, qp.1, qp.2, fp.2⟩
  else if nfkc [] then .error ()
  else
    let fp := match splitOnFirst '#' u3 with
      | some (a, b) => (a, b)
      | none => (u3, [])
    let qp := match splitOnFirst '?' fp.1 with
      | some (a, b) => (a, b)
      | none => (fp.1, [])
    .ok ⟨scheme, [], qp.1, qp.2, fp.2⟩

/-- `urllib.parse.uses_params`. -/
def usesParams : List PyStr :=
  [pys "", pys "ftp", pys "hdl", pys "prospero", pys "http", pys "imap",
   pys "https", pys "shttp", pys "rtsp", pys "rtsps", pys "rtspu", pys "sip",
   pys "sips", pys "mms", pys "sftp", pys "tel"]

/-- `urllib.parse.uses_netloc`. -/
def usesNetloc : List PyStr :=
  [pys "", pys "ftp", pys "http", pys "gopher", pys "nntp", pys "telnet",
   pys "imap", pys "wais", pys "file", pys "mms", pys "https", pys "shttp",
   pys "snews", pys "prospero", pys "rtsp", pys "rtsps", pys "rtspu",
   pys "rsync", pys "svn", pys "svn+ssh", pys "sftp", pys "nfs", pys "git",
   pys "git+ssh", pys "ws", pys "wss"]

/-- Index of the last occurrence of `c`, if any. -/
def lastIdxOf (c : Char) (s : PyStr) : Option Nat :=
  match s.reverse.findIdx? (· = c) with
  | some j => some (s.length - 1 - j)
  | none => none

/-- `urllib.parse._splitparams`: split `;params` off the last path segment. -/
def splitParams (url : PyStr) : PyStr × PyStr :=
  if '/' ∈ url then
    match lastIdxOf '/' url with
    | some j =>
      if ';' ∈ url.drop j then
        let i := j + ((url.drop j).findIdx (· = ';'))
        (url.take i, url.drop (i + 1))
      else (url, [])
    | none => (url, [])
  else
    (url.take (url.findIdx (· = ';')), url.drop (url.findIdx (· = ';') + 1))

/-- The six components `urlparse` returns. -/
structure ParseResult where
  scheme : PyStr
  netloc : PyStr
  path : PyStr
  params : PyStr
  query : PyStr
  fragment : PyStr
deriving DecidableEq, Repr

/-- `urllib.parse.urlparse` (CPython 3.11): `urlsplit` plus the params
split, applied only for schemes in `uses_params`. -/
def urlparseE (nfkc : PyStr → Bool) (u : PyStr) : Except Unit ParseResult :=
  (urlsplitE nfkc u).map fun r =>
    if r.scheme ∈ usesParams ∧ ';' ∈ r.path then
      let pp := splitParams r.path
      ⟨r.scheme, r.netloc, pp.1, pp.2, r.query, r.fragment⟩
    else ⟨r.scheme, r.netloc, r.path, [], r.query, r.fragment⟩

/-- `urllib.parse.urlunsplit` (CPython 3.11). -/
def urlunsplitPy (c : SplitResult) : PyStr :=
  let url := c.path
  let url :=
    if c.netloc ≠ [] ∨ (c.scheme ≠ [] ∧ c.scheme ∈ usesNetloc ∧ url.take 2 ≠ pys "//")
    then
      let url := if url ≠ [] ∧ url.take 1 ≠ pys "/" then '/' :: url else url
      pys "//" ++ c.netloc ++ url
    else url
  let url := if c.scheme ≠ [] then c.scheme ++ ':' :: url else url
  let url := if c.query ≠ [] then url ++ '?' :: c.query else url
  let url := if c.fragment ≠ [] then url ++ '#' :: c.fragment else url
  url

/-- `urllib.parse.urlunparse`: re-attach params, then `urlunsplit`. -/
def urlunparsePy (c : ParseResult) : PyStr :=
  let url := if c.params ≠ [] then c.path ++ ';' :: c.params else c.path
  urlunsplitPy ⟨c.scheme, c.netloc, url, c.query, c.fragment⟩

/-- `DROP_PARAMS` of `main_patched.py`: tracking query parameters removed
during canonicalisation. -/
def DROP_PARAMS : List PyStr :=
  [pys "utm_source", pys "utm_medium", pys "utm_campaign", pys "utm_term",
   pys "utm_content", pys "fbclid", pys "gclid", pys "mc_cid", pys "mc_eid"]

/-- `canonicalize_url` of `main_patched.py`: parse, filter tracking query
parameters, lower-case scheme and host, strip the trailing slash (an empty
path becomes `/`), drop params and fragment, re-encode the query; on any
parse exception return the input unchanged. -/
def canonicalize_url (nfkc : PyStr → Bool) (u : PyStr) : PyStr :=
  match urlparseE nfkc u with
  | .error _ => u
  | .ok p =>
    let q := (pyParseQsl p.query).filter (fun kv => pyLower kv.1 ∉ DROP_PARAMS)
    let path := match rstripSlash p.path with
      | [] => pys "/"
      | pp => pp
    urlunparsePy ⟨pyLower p.scheme, pyLower p.netloc, path, [], pyUrlencode q, []⟩

/-- Python's `needle in haystack` substring test. -/
def isSubstrOf (needle hay : PyStr) : Bool := decide (needle <:+: hay)

/-- `INTL_HOST_SNIPPETS` of `main_patched.py`. -/
def INTL_HOST_SNIPPETS : List PyStr :=
  [pys "bbc.", pys "reuters.", pys "theguardian.", pys "apnews.", pys "cnn.",
   pys "aljazeera.", pys "nytimes.", pys "dw.com", pys "npr.org", pys "euronews."]

/-- `is_international` of `main_patched.py`: the link's host (lower-cased)
contains one of the international-source snippets; any parse exception
yields `False`. -/
def is_international (nfkc : PyStr → Bool) (url : PyStr) : Bool :=
  match urlsplitE nfkc url with
  | .error _ => false
  | .ok r => INTL_HOST_SNIPPETS.any (fun sn => isSubstrOf sn (pyLower r.netloc))

/-- The alternatives of `UA_REGEX` (lower-cased literals; the regex is an
IGNORECASE alternation of these words, modelled as case-folded substring
search). -/
def UA_KEYWORDS : List PyStr :=
  [pys "україна", pys "україн", pys "київ", pys "києв", pys "харків",
   pys "львів", pys "одеса", pys "донбас", pys "донецьк", pys "крим",
   pys "херсон", pys "маріуполь", pys "запоріжж", pys "дніпро", pys "зеленськ",
   pys "украина", pys "киев", pys "харьков", pys "львов", pys "одесса",
   pys "ukraine", pys "ukrainian", pys "kyiv", pys "kiev", pys "kharkiv",
   pys "lviv", pys "odesa", pys "donbas", pys "donetsk", pys "crimea",
   pys "kherson", pys "mariupol", pys "zaporizh", pys "dnipro", pys "zelensky"]

/-- `is_ukraine_related` of `main_patched.py`: `UA_REGEX.search` over
`f"{title} {summary}"`. -/
def is_ukraine_related (title summary : PyStr) : Bool :=
  let haystack := pyLower (title ++ pys " " ++ summary)
  UA_KEYWORDS.any (fun k => isSubstrOf k haystack)

/-- `translate_to_uk` of `main_patched.py`, with the two providers
(LibreTranslator, GoogleTranslator) as oracles that either return a
translation or raise.  Returns the result together with the list of
providers invoked (1 = primary, 2 = secondary), so that claims about
which providers run are expressible.  Total by construction: every
provider exception is caught. -/
def translate_to_uk (p1 p2 : PyStr → Except Unit PyStr) (text : PyStr) :
    PyStr × List Nat :=
  if text = [] then (text, [])
  else
    match p1 text with
    | .ok r => (r, [1])
    | .error _ =>
      match p2 text with
      | .ok r => (r, [1, 2])
      | .error _ => (text, [1, 2])

/-- `build_validation_message` of `main_patched.py`.  `tr` is the resolved
behaviour of `translate_to_uk` (a total function, as the source guarantees). -/
def build_validation_message (nfkc : PyStr → Bool) (tr : PyStr → PyStr)
    (link title summary : PyStr) : PyStr :=
  if is_international nfkc link then
    if ¬ is_ukraine_related title summary then []
    else
      let brief := summary.take 300
      let translated_title := tr title
      let translated_brief := if brief ≠ [] then tr brief else []
      let lines := [pys "🇺🇦 *" ++ translated_title ++ pys "*"]
        ++ (if translated_brief ≠ [] then [translated_brief] else [])
        ++ [pys "🔗 Джерело: " ++ link]
      intercalateChar '\n' lines
  else
    let cap_lines :=
      (if title ≠ [] then [pys "*" ++ title ++ pys "*"] else [])
      ++ (if summary ≠ [] then
            [if summary.length > 1000 then rstripWS (summary.take 1000) ++ pys "…"
             else summary.take 1000]
          else [])
      ++ [pys "\n[Читати джерело](" ++ link ++ pys ")"]
    let message := intercalateChar '\n' cap_lines
    if message.length > 4096 then message.take 4095 ++ pys "…" else message

/-- One entry of `pending_posts`. -/
structure PostData where
  text : PyStr
  image_url : Option PyStr
  validator_message_id : Nat
  canonical_link : PyStr
  source_link : PyStr
deriving DecidableEq, Repr

/-- The bot's global mutable state: the Seen-Set `posted_links` and the
Moderation Store `pending_posts` (an association list standing for the
Python dict; keys are the opaque callback tokens). -/
structure BotState where
  posted_links : List PyStr
  pending_posts : List (PyStr × PostData)
deriving DecidableEq, Repr

/-- A message sent to the broadcast (main) channel on approval. -/
inductive BroadcastSend where
  | photo (image caption : PyStr)
  | message (text : PyStr)
deriving DecidableEq, Repr

/-- Everything observable from one `handle_callback` run: the new state,
the optional broadcast-channel send, and the in-place edit applied to the
moderator posting (`none` when the handler returns before editing). -/
structure CbResult where
  state : BotState
  broadcast : Option BroadcastSend
  validationEdit : Option PyStr
deriving DecidableEq, Repr

/-- The "already processed" reply (`"Цей запис вже опрацьовано."`). -/
def ALREADY_PROCESSED : PyStr := pys "Цей запис вже опрацьовано."

/-- `"✅ Опубліковано"`. -/
def STATUS_PUBLISHED : PyStr := pys "✅ Опубліковано"

/-- `"❌ Відхилено"`. -/
def STATUS_REJECTED : PyStr := pys "❌ Відхилено"

/-- The always-appended source-link suffix
`f"\n\n🔗 Джерело: {source_link}"`. -/
def link_line (source_link : PyStr) : PyStr := pys "\n\n🔗 Джерело: " ++ source_link

/-- Python truthiness of the stored optional image URL (`if image_url:`),
false for both `None` and the empty string. -/
def truthyOpt : Option PyStr → Bool
  | none => false
  | some s => s ≠ []

/-- The broadcast-time truncation both branches of `handle_callback`
perform, with `budget` 1024 (photo caption) or 4096 (text message):
`text[: budget - len(link_line) - 3] + "..."` when over budget, then the
source-link suffix.  The slice bound is a Python `int` and may be
negative, with Python slicing semantics (`pyTakeInt`). -/
def composeFinal (budget : Nat) (text ll : PyStr) : PyStr :=
  let maxLen : Int := (budget : Int) - ll.length
  let base := if (text.length : Int) > maxLen then pyTakeInt text (maxLen - 3) ++ pys "..."
    else text
  base ++ ll

/-- Remove a token from `pending_posts` (`pending_posts.pop(cid, None)`). -/
def erasePending (cid : PyStr) (l : List (PyStr × PostData)) : List (PyStr × PostData) :=
  l.eraseP (fun kv => kv.1 == cid)

/-- `handle_callback` of `main_patched.py`.  `data` is
`update.callback_query.data` (`none` for a missing payload).  The
outbound Telegram calls are modelled as succeeding; a raising send would
abort the handler before any state change, which no claim quantifies
over. -/
def handleCallback (st : BotState) (data : Option PyStr) : CbResult :=
  match data with
  | none => ⟨st, none, none⟩
  | some d =>
    if d = [] then ⟨st, none, none⟩
    else
      match splitOnFirst ':' d with
      | none => ⟨st, none, none⟩
      | some (action, cid) =>
        match List.lookup cid st.pending_posts with
        | none => ⟨st, none, some ALREADY_PROCESSED⟩
        | some pd =>
          let original_text := pd.text
          let source_link := if pd.source_link ≠ [] then pd.source_link
            else pd.canonical_link
          let ll := link_line source_link
          let st' : BotState := ⟨st.posted_links, erasePending cid st.pending_posts⟩
          if action = pys "approve" then
            if truthyOpt pd.image_url then
              ⟨st', some (.photo (pd.image_url.getD []) (composeFinal 1024 original_text ll)),
               some (original_text ++ pys "\n\n" ++ STATUS_PUBLISHED)⟩
            else
              ⟨st', some (.message (composeFinal 4096 original_text ll)),
               some (original_text ++ pys "\n\n" ++ STATUS_PUBLISHED)⟩
          else
            ⟨st', none, some (original_text ++ pys "\n\n" ++ STATUS_REJECTED)⟩

/-- One RSS entry, as consumed by `fetch_feeds` (fields the core reads). -/
structure Entry where
  link : PyStr
  title : PyStr
  summary : PyStr
deriving DecidableEq, Repr

/-- The environment of one ingestion cycle: the `_checknetloc` oracle, the
two translation providers, `extract_image` (whose og-image step is
network-bound) as an oracle, the validator-channel send (which may raise),
and the `uuid4().hex` token stream indexed by how many candidates have
been registered. -/
structure FetchEnv where
  nfkc : PyStr → Bool
  prov1 : PyStr → Except Unit PyStr
  prov2 : PyStr → Except Unit PyStr
  imageOf : Entry → Option PyStr
  sendMsg : PyStr → Except Unit Nat
  freshToken : Nat → PyStr

/-- State threaded through a cycle: the bot state, the number of
registered candidates (token index), and the log of moderator postings
successfully sent. -/
structure FetchState where
  bot : BotState
  counter : Nat
  sent : List PyStr
deriving DecidableEq, Repr

/-- The body of the inner `for entry in feed.entries[:5]` loop of
`fetch_feeds` for a single entry.  `Except.error` models an uncaught
exception from the validator-channel send: the canonical key is already
recorded in the Seen-Set (the `add` precedes the send), no candidate is
registered, and the exception propagates. -/
def processEntry (env : FetchEnv) (s : FetchState) (e : Entry) :
    Except FetchState FetchState :=
  let canonical_link := canonicalize_url env.nfkc e.link
  if canonical_link ∈ s.bot.posted_links then .ok s
  else
    let posted := canonical_link :: s.bot.posted_links
    let message := build_validation_message env.nfkc
      (fun t => (translate_to_uk env.prov1 env.prov2 t).1) e.link e.title e.summary
    if message = [] then .ok ⟨⟨posted, s.bot.pending_posts⟩, s.counter, s.sent⟩
    else
      let image_url := env.imageOf e
      let cid := env.freshToken s.counter
      match env.sendMsg message with
      | .error _ => .error ⟨⟨posted, s.bot.pending_posts⟩, s.counter, s.sent⟩
      | .ok mid =>
        .ok ⟨⟨posted, s.bot.pending_posts ++
              [(cid, ⟨message, image_url, mid, canonical_link, e.link⟩)]⟩,
             s.counter + 1, s.sent ++ [message]⟩

/-- The inner loop over one feed's entries; an exception aborts the rest. -/
def runEntries (env : FetchEnv) : FetchState → List Entry → Except FetchState FetchState
  | s, [] => .ok s
  | s, e :: es =>
    match processEntry env s e with
    | .ok s' => runEntries env s' es
    | .error s' => .error s'

/-- `fetch_feeds` of `main_patched.py`: for each source the transport
yields a list of entries, of which the first five are processed; an
uncaught exception aborts the whole cycle. -/
def fetchFeeds (env : FetchEnv) : FetchState → List (List Entry) → Except FetchState FetchState
  | s, [] => .ok s
  | s, feed :: feeds =>
    match runEntries env s (feed.take 5) with
    | .ok s' => fetchFeeds env s' feeds
    | .error s' => .error s'

theorem lookup_none_of_not_mem_keys {cid : PyStr} :
    ∀ {l : List (PyStr × PostData)}, cid ∉ l.map Prod.fst → List.lookup cid l = none := by
  intro l
  induction l with
  | nil => intro _; rfl
  | cons kv rest ih =>
    intro h
    simp only [List.map_cons, List.mem_cons] at h
    push_neg at h
    have hk : (cid == kv.1) = false := by
      simp only [beq_eq_false_iff_ne, ne_eq]
      exact fun e => h.1 (e ▸ rfl)
    cases kv with
    | mk k v =>
      simp only [List.lookup]
      simp only [] at hk
      rw [hk]
      exact ih h.2

theorem lookup_erasePending_self {cid : PyStr} :
    ∀ {l : List (PyStr × PostData)}, (l.map Prod.fst).Nodup →
      List.lookup cid (erasePending cid l) = none := by
  intro l
  induction l with
  | nil => intro _; rfl
  | cons kv rest ih =>
    intro hnodup
    simp only [List.map_cons, List.nodup_cons] at hnodup
    by_cases hk : kv.1 = cid
    · have : erasePending cid (kv :: rest) = rest := by
        simp [erasePending, List.eraseP_cons, hk]
      rw [this]
      apply lookup_none_of_not_mem_keys
      rw [← hk]
      exact hnodup.1
    · have : erasePending cid (kv :: rest) = kv :: erasePending cid rest := by
        simp [erasePending, List.eraseP_cons, hk]
      rw [this]
      cases kv with
      | mk k v =>
        simp only [List.lookup]
        have hk2 : (cid == k) = false := by
          simp only [beq_eq_false_iff_ne, ne_eq]
          exact fun e => hk (by simp [← e])
        rw [hk2]
        exact ih hnodup.2

theorem handleCallback_miss (st : BotState) {action cid : PyStr}
    (hac : ':' ∉ action) (hmiss : List.lookup cid st.pending_posts = none) :
    handleCallback st (some (action ++ ':' :: cid)) = ⟨st, none, some ALREADY_PROCESSED⟩ := by
  have hne : action ++ ':' :: cid ≠ [] := by simp
  simp only [handleCallback, if_neg hne, splitOnFirst_append_sep hac cid, hmiss]

theorem handleCallback_found (st : BotState) {action cid : PyStr} {pd : PostData}
    (hac : ':' ∉ action) (hfind : List.lookup cid st.pending_posts = some pd) :
    handleCallback st (some (action ++ ':' :: cid)) =
      (if action = pys "approve" then
         if truthyOpt pd.image_url then
           (⟨⟨st.posted_links, erasePending cid st.pending_posts⟩,
             some (.photo (pd.image_url.getD [])
               (composeFinal 1024 pd.text (link_line
                 (if pd.source_link ≠ [] then pd.source_link else pd.canonical_link)))),
             some (pd.text ++ pys "\n\n" ++ STATUS_PUBLISHED)⟩ : CbResult)
         else
           ⟨⟨st.posted_links, erasePending cid st.pending_posts⟩,
             some (.message (composeFinal 4096 pd.text (link_line
               (if pd.source_link ≠ [] then pd.source_link else pd.canonical_link)))),
             some (pd.text ++ pys "\n\n" ++ STATUS_PUBLISHED)⟩
       else
         ⟨⟨st.posted_links, erasePending cid st.pending_posts⟩, none,
           some (pd.text ++ pys "\n\n" ++ STATUS_REJECTED)⟩) := by
  have hne : action ++ ':' :: cid ≠ [] := by simp
  simp only [handleCallback, if_neg hne, splitOnFirst_append_sep hac cid, hfind]

theorem handleCallback_found_state (st : BotState) {action cid : PyStr} {pd : PostData}
    (hac : ':' ∉ action) (hfind : List.lookup cid st.pending_posts = some pd) :
    (handleCallback st (some (action ++ ':' :: cid))).state =
      ⟨st.posted_links, erasePending cid st.pending_posts⟩ := by
  rw [handleCallback_found st hac hfind]
  by_cases h1 : action = pys "approve"
  · rw [if_pos h1]
    by_cases h2 : truthyOpt pd.image_url
    · rw [if_pos h2]
    · rw [if_neg h2]
  · rw [if_neg h1]

/-- Sample entities for the concrete witnesses below. -/
def samplePost : PostData :=
  ⟨pys "hello *world*", none, 7, pys "http://a.example/x", pys "http://a.example/x"⟩

/-- A store holding exactly one pending candidate under token `token1`. -/
def sampleState : BotState := ⟨[], [(pys "token1", samplePost)]⟩

/-- C4: for a token absent from the Moderation Store, `decide(token, action)`
for any action replies "already processed" to the moderator, raises no
exception (the handler is a total function of the embedded state), sends
nothing to the broadcast channel, and leaves the Seen-Set and the pending
store unchanged: the result is exactly the unchanged state, no broadcast,
and the "already processed" edit. -/
theorem C4_unknown_token_noop (st : BotState) (action cid : PyStr)
    (hmiss : List.lookup cid st.pending_posts = none) (hac : ':' ∉ action) :
    handleCallback st (some (action ++ ':' :: cid)) =
      ⟨st, none, some ALREADY_PROCESSED⟩ :=
  handleCallback_miss st hac hmiss

theorem C4_unknown_token_noop_witness :
    handleCallback sampleState (some (pys "approve" ++ ':' :: pys "zzz")) =
      ⟨sampleState, none, some ALREADY_PROCESSED⟩ :=
  C4_unknown_token_noop sampleState (pys "approve") (pys "zzz") (by decide) (by decide)

/-- C3: once `decide(token, approve)` has completed, a subsequent
`decide(token, action)` for any action finds the token gone from the
store: it performs no broadcast-channel send and leaves the state
produced by the approval (hence the approved outcome) unchanged.  The
first call does broadcast (its send is `some`), the second does not. -/
theorem C3_approve_then_any (st : BotState) (cid action2 : PyStr) (pd : PostData)
    (hfind : List.lookup cid st.pending_posts = some pd)
    (hnodup : (st.pending_posts.map Prod.fst).Nodup)
    (hac2 : ':' ∉ action2) :
    (handleCallback st (some (pys "approve" ++ ':' :: cid))).broadcast ≠ none ∧
    handleCallback (handleCallback st (some (pys "approve" ++ ':' :: cid))).state
        (some (action2 ++ ':' :: cid)) =
      ⟨(handleCallback st (some (pys "approve" ++ ':' :: cid))).state, none,
        some ALREADY_PROCESSED⟩ := by
  have hac : ':' ∉ pys "approve" := by decide
  constructor
  · rw [handleCallback_found st hac hfind, if_pos rfl]
    by_cases h2 : truthyOpt pd.image_url
    · rw [if_pos h2]
      simp
    · rw [if_neg h2]
      simp
  · apply handleCallback_miss
    · exact hac2
    · rw [handleCallback_found_state st hac hfind]
      exact lookup_erasePending_self hnodup

theorem C3_approve_then_any_witness :
    (handleCallback sampleState (some (pys "approve" ++ ':' :: pys "token1"))).broadcast ≠
        none ∧
    handleCallback (handleCallback sampleState
        (some (pys "approve" ++ ':' :: pys "token1"))).state
        (some (pys "reject" ++ ':' :: pys "token1")) =
      ⟨(handleCallback sampleState (some (pys "approve" ++ ':' :: pys "token1"))).state,
        none, some ALREADY_PROCESSED⟩ :=
  C3_approve_then_any sampleState (pys "token1") (pys "reject") samplePost
    (by decide) (by decide) (by decide)

/-- C9: any callback action other than exactly `"approve"` (not only
`"reject"`) on a stored token finalises the candidate as rejected: no
broadcast-channel send happens, the moderator posting is edited to the
stored text plus the rejected status, and the candidate is removed from
the store. -/
theorem C9_nonapprove_rejects (st : BotState) (action cid : PyStr) (pd : PostData)
    (hfind : List.lookup cid st.pending_posts = some pd)
    (hnodup : (st.pending_posts.map Prod.fst).Nodup)
    (hac : ':' ∉ action) (hne : action ≠ pys "approve") :
    handleCallback st (some (action ++ ':' :: cid)) =
      ⟨⟨st.posted_links, erasePending cid st.pending_posts⟩, none,
        some (pd.text ++ pys "\n\n" ++ STATUS_REJECTED)⟩ ∧
    List.lookup cid
        (handleCallback st (some (action ++ ':' :: cid))).state.pending_posts = none := by
  constructor
  · rw [handleCallback_found st hac hfind, if_neg hne]
  · rw [handleCallback_found_state st hac hfind]
    exact lookup_erasePending_self hnodup

theorem C9_nonapprove_rejects_witness :
    handleCallback sampleState (some (pys "blah" ++ ':' :: pys "token1")) =
      ⟨⟨sampleState.posted_links, erasePending (pys "token1") sampleState.pending_posts⟩,
        none, some (samplePost.text ++ pys "\n\n" ++ STATUS_REJECTED)⟩ ∧
    List.lookup (pys "token1")
        (handleCallback sampleState
          (some (pys "blah" ++ ':' :: pys "token1"))).state.pending_posts = none :=
  C9_nonapprove_rejects sampleState (pys "blah") (pys "token1") samplePost
    (by decide) (by decide) (by decide) (by decide)

/-- C10: deciding a stored token (any action) leaves a store containing
only undecided candidates: the token's entry is removed, nothing else in
the state changes, no decided-set exists in the state (`BotState` has no
such field, mirroring the code, which keeps only `posted_links` and
`pending_posts`), and any later callback on the same token — the only
kind of event the simplified bot registers a handler for — finds the
token absent, changes nothing and resolves nothing. -/
theorem C10_decided_token_gone (st : BotState) (action cid : PyStr) (pd : PostData)
    (hfind : List.lookup cid st.pending_posts = some pd)
    (hnodup : (st.pending_posts.map Prod.fst).Nodup)
    (hac : ':' ∉ action) :
    (handleCallback st (some (action ++ ':' :: cid))).state.pending_posts =
      erasePending cid st.pending_posts ∧
    (handleCallback st (some (action ++ ':' :: cid))).state.posted_links =
      st.posted_links ∧
    List.lookup cid
        (handleCallback st (some (action ++ ':' :: cid))).state.pending_posts = none ∧
    (∀ action2 : PyStr, ':' ∉ action2 →
      handleCallback (handleCallback st (some (action ++ ':' :: cid))).state
          (some (action2 ++ ':' :: cid)) =
        ⟨(handleCallback st (some (action ++ ':' :: cid))).state, none,
          some ALREADY_PROCESSED⟩) := by
  have hstate := handleCallback_found_state st hac hfind
  have hmiss : List.lookup cid
      (handleCallback st (some (action ++ ':' :: cid))).state.pending_posts = none := by
    rw [hstate]
    exact lookup_erasePending_self hnodup
  refine ⟨by rw [hstate], by rw [hstate], hmiss, ?_⟩
  intro action2 hac2
  exact handleCallback_miss _ hac2 hmiss

theorem C10_decided_token_gone_witness :
    (handleCallback sampleState
        (some (pys "approve" ++ ':' :: pys "token1"))).state.pending_posts =
      erasePending (pys "token1") sampleState.pending_posts ∧
    (handleCallback sampleState
        (some (pys "approve" ++ ':' :: pys "token1"))).state.posted_links =
      sampleState.posted_links ∧
    List.lookup (pys "token1")
        (handleCallback sampleState
          (some (pys "approve" ++ ':' :: pys "token1"))).state.pending_posts = none ∧
    handleCallback (handleCallback sampleState
        (some (pys "approve" ++ ':' :: pys "token1"))).state
        (some (pys "reject" ++ ':' :: pys "token1")) =
      ⟨(handleCallback sampleState
          (some (pys "approve" ++ ':' :: pys "token1"))).state, none,
        some ALREADY_PROCESSED⟩ :=
  have h := C10_decided_token_gone sampleState (pys "approve") (pys "token1") samplePost
    (by decide) (by decide) (by decide)
  ⟨h.1, h.2.1, h.2.2.1, h.2.2.2 (pys "reject") (by decide)⟩

/-- C6: `translate_to_uk` never propagates a provider exception (it is a
total function of the provider oracles; both provider calls sit inside
`try/except`): when the primary provider fails and the secondary provider
also fails, the input text comes back unchanged; empty input is returned
as-is with no provider invoked (the invocation log is empty). -/
theorem C6_translate_fallback (p1 p2 : PyStr → Except Unit PyStr) (text : PyStr) :
    (p1 text = .error () → p2 text = .error () →
      (translate_to_uk p1 p2 text).1 = text) ∧
    (text = [] → translate_to_uk p1 p2 text = (text, [])) := by
  constructor
  · intro h1 h2
    by_cases he : text = []
    · simp [translate_to_uk, he]
    · simp [translate_to_uk, he, h1, h2]
  · intro he
    simp [translate_to_uk, he]

theorem C6_translate_fallback_witness :
    (translate_to_uk (fun _ => .error ()) (fun _ => .error ())
        (pys "breaking news")).1 = pys "breaking news" ∧
    translate_to_uk (fun _ => .error ()) (fun _ => .error ()) (pys "") = (pys "", []) :=
  ⟨(C6_translate_fallback (fun _ => .error ()) (fun _ => .error ())
      (pys "breaking news")).1 rfl rfl,
   (C6_translate_fallback (fun _ => .error ()) (fun _ => .error ()) (pys "")).2 rfl⟩

theorem processEntry_seen {env : FetchEnv} {s : FetchState} {e : Entry}
    (h : canonicalize_url env.nfkc e.link ∈ s.bot.posted_links) :
    processEntry env s e = .ok s := by
  simp only [processEntry]
  rw [if_pos h]

theorem processEntry_key_recorded {env : FetchEnv} {s : FetchState} {e : Entry} :
    ∀ {s' : FetchState},
      processEntry env s e = .ok s' ∨ processEntry env s e = .error s' →
      canonicalize_url env.nfkc e.link ∈ s'.bot.posted_links ∧
      (∀ k ∈ s.bot.posted_links, k ∈ s'.bot.posted_links) := by
  intro s' hres
  by_cases hseen : canonicalize_url env.nfkc e.link ∈ s.bot.posted_links
  · rw [processEntry_seen hseen] at hres
    rcases hres with h | h
    · simp only [Except.ok.injEq] at h
      subst h
      exact ⟨hseen, fun k hk => hk⟩
    · exact absurd h (by simp)
  · simp only [processEntry] at hres
    rw [if_neg hseen] at hres
    by_cases hm : build_validation_message env.nfkc
        (fun t => (translate_to_uk env.prov1 env.prov2 t).1) e.link e.title e.summary = []
    · rw [if_pos hm] at hres
      rcases hres with h | h
      · simp only [Except.ok.injEq] at h
        subst h
        exact ⟨List.mem_cons_self _ _, fun k hk => List.mem_cons_of_mem _ hk⟩
      · exact absurd h (by simp)
    · rw [if_neg hm] at hres
      cases hsend : env.sendMsg (build_validation_message env.nfkc
          (fun t => (translate_to_uk env.prov1 env.prov2 t).1) e.link e.title e.summary) with
      | error err =>
        rw [hsend] at hres
        rcases hres with h | h
        · exact absurd h (by simp)
        · simp only [Except.error.injEq] at h
          subst h
          exact ⟨List.mem_cons_self _ _, fun k hk => List.mem_cons_of_mem _ hk⟩
      | ok mid =>
        rw [hsend] at hres
        rcases hres with h | h
        · simp only [Except.ok.injEq] at h
          subst h
          exact ⟨List.mem_cons_self _ _, fun k hk => List.mem_cons_of_mem _ hk⟩
        · exact absurd h (by simp)

theorem runEntries_posted_mono {env : FetchEnv} :
    ∀ {es : List Entry} {s s' : FetchState},
      runEntries env s es = .ok s' ∨ runEntries env s es = .error s' →
      ∀ k ∈ s.bot.posted_links, k ∈ s'.bot.posted_links := by
  intro es
  induction es with
  | nil =>
    intro s s' hres k hk
    rcases hres with h | h
    · simp only [runEntries, Except.ok.injEq] at h
      subst h
      exact hk
    · exact absurd h (by simp [runEntries])
  | cons e es ih =>
    intro s s' hres k hk
    simp only [runEntries] at hres
    cases hp : processEntry env s e with
    | ok s1 =>
      rw [hp] at hres
      have h1 := (processEntry_key_recorded (Or.inl hp)).2 k hk
      exact ih hres _ h1
    | error s1 =>
      rw [hp] at hres
      have h1 := (processEntry_key_recorded (Or.inr hp)).2 k hk
      rcases hres with h | h
      · exact absurd h (by simp)
      · simp only [Except.error.injEq] at h
        subst h
        exact h1

theorem fetchFeeds_posted_mono {env : FetchEnv} :
    ∀ {feeds : List (List Entry)} {s s' : FetchState},
      fetchFeeds env s feeds = .ok s' ∨ fetchFeeds env s feeds = .error s' →
      ∀ k ∈ s.bot.posted_links, k ∈ s'.bot.posted_links := by
  intro feeds
  induction feeds with
  | nil =>
    intro s s' hres k hk
    rcases hres with h | h
    · simp only [fetchFeeds, Except.ok.injEq] at h
      subst h
      exact hk
    · exact absurd h (by simp [fetchFeeds])
  | cons feed feeds ih =>
    intro s s' hres k hk
    simp only [fetchFeeds] at hres
    cases hr : runEntries env s (feed.take 5) with
    | ok s1 =>
      rw [hr] at hres
      exact ih hres _ (runEntries_posted_mono (Or.inl hr) k hk)
    | error s1 =>
      rw [hr] at hres
      rcases hres with h | h
      · exact absurd h (by simp)
      · simp only [Except.error.injEq] at h
        subst h
        exact runEntries_posted_mono (Or.inr hr) k hk

/-- C2: the Seen-Set gates ingestion.  (i) An item whose canonical key is
already in the Seen-Set is skipped before anything else happens: the
state (pending store, token counter and send log included) is returned
unchanged, so no candidate is created and no moderator posting is sent.
(ii) Every item that gets past the gate has its canonical key added to
the Seen-Set before relevance filtering: whatever the outcome — candidate
registered, item discarded as foreign-and-irrelevant (empty composed
message), or even a send exception — the key is in the Seen-Set of the
resulting state.  (iii) Seen-Set membership survives arbitrary later
cycles, so by (i) a discarded item is never reconsidered. -/
theorem C2_seen_set_gate (env : FetchEnv) (s : FetchState) (e : Entry) :
    (canonicalize_url env.nfkc e.link ∈ s.bot.posted_links →
      processEntry env s e = .ok s) ∧
    (∀ s', processEntry env s e = .ok s' ∨ processEntry env s e = .error s' →
      canonicalize_url env.nfkc e.link ∈ s'.bot.posted_links) ∧
    (∀ feeds s', fetchFeeds env s feeds = .ok s' ∨ fetchFeeds env s feeds = .error s' →
      ∀ k ∈ s.bot.posted_links, k ∈ s'.bot.posted_links) := by
  refine ⟨fun h => processEntry_seen h, ?_, ?_⟩
  · intro s' hres
    exact (processEntry_key_recorded hres).1
  · intro feeds s' hres
    exact fetchFeeds_posted_mono hres

/-- Concrete ingestion environment for witnesses: failing translators, no
image, validator send succeeding with message id 5. -/
def sampleEnv : FetchEnv :=
  ⟨fun _ => false, fun _ => .error (), fun _ => .error (), fun _ => none,
   fun _ => .ok 5, fun _ => pys "newtoken"⟩

/-- A native (non-international) entry. -/
def sampleEntry : Entry := ⟨pys "http://a.example/x", pys "title", pys "summary"⟩

/-- A cycle state whose Seen-Set already holds the sample entry's key. -/
def sampleFetchState : FetchState :=
  ⟨⟨[canonicalize_url (fun _ => false) (pys "http://a.example/x")], []⟩, 0, []⟩

theorem C2_seen_set_gate_witness :
    processEntry sampleEnv sampleFetchState sampleEntry = .ok sampleFetchState :=
  (C2_seen_set_gate sampleEnv sampleFetchState sampleEntry).1 (by
    show canonicalize_url sampleEnv.nfkc sampleEntry.link ∈
      [canonicalize_url (fun _ => false) (pys "http://a.example/x")]
    exact List.mem_cons_self _ _)

deriving instance DecidableEq for Except

/-- Ingestion environment whose validator-channel send always raises
(models a Telegram transport error during `bot.send_message`). -/
def failSendEnv : FetchEnv :=
  ⟨fun _ => false, fun _ => .error (), fun _ => .error (), fun _ => none,
   fun _ => .error (), fun _ => pys "newtoken"⟩

/-- First fresh native entry of the failing cycle. -/
def c7EntryOne : Entry := ⟨pys "http://a.example/1", pys "one", pys "first summary"⟩

/-- Second fresh native entry, behind the failing one in the same feed. -/
def c7EntryTwo : Entry := ⟨pys "http://a.example/2", pys "two", pys "second summary"⟩

/-- C7 counterexample: with one feed holding two fresh relevant items, a
transport error while sending the moderator posting for the first item
aborts the whole `fetch_feeds` cycle — the claim that "the remaining
items of that source and the remaining sources are still processed in
the same cycle" is false on the code (no `try/except` guards the send).
The cycle ends in the propagated exception; the second item's canonical
key was never recorded, no moderator posting was sent for it, and no
candidate was registered for either item. -/
theorem C7_counterexample :
    fetchFeeds failSendEnv ⟨⟨[], []⟩, 0, []⟩ [[c7EntryOne, c7EntryTwo]] =
      .error ⟨⟨[canonicalize_url (fun _ => false) (pys "http://a.example/1")], []⟩, 0, []⟩ ∧
    canonicalize_url (fun _ => false) (pys "http://a.example/2") ∉
      [canonicalize_url (fun _ => false) (pys "http://a.example/1")] := by
  constructor
  · decide
  · decide

/-- C7 amended: an uncaught transport error raised while sending the
moderator posting for one candidate aborts the rest of the ingestion
cycle.  The failing item's canonical key is still recorded in the
Seen-Set (the add precedes the send), no candidate is registered and
nothing is logged as sent for it, and the remaining items of the feed are
left unprocessed: the loop returns immediately with the exception. -/
theorem C7_send_error_aborts_cycle (env : FetchEnv) (s : FetchState) (e : Entry)
    (es : List Entry)
    (hfresh : canonicalize_url env.nfkc e.link ∉ s.bot.posted_links)
    (hmsg : build_validation_message env.nfkc
      (fun t => (translate_to_uk env.prov1 env.prov2 t).1) e.link e.title e.summary ≠ [])
    (hsend : env.sendMsg (build_validation_message env.nfkc
      (fun t => (translate_to_uk env.prov1 env.prov2 t).1) e.link e.title e.summary) =
      .error ()) :
    runEntries env s (e :: es) =
      .error ⟨⟨canonicalize_url env.nfkc e.link :: s.bot.posted_links,
        s.bot.pending_posts⟩, s.counter, s.sent⟩ := by
  have hpe : processEntry env s e =
      .error ⟨⟨canonicalize_url env.nfkc e.link :: s.bot.posted_links,
        s.bot.pending_posts⟩, s.counter, s.sent⟩ := by
    simp only [processEntry]
    rw [if_neg hfresh, if_neg hmsg, hsend]
  simp only [runEntries]
  rw [hpe]

theorem C7_send_error_aborts_cycle_witness :
    runEntries failSendEnv ⟨⟨[], []⟩, 0, []⟩ [c7EntryOne, c7EntryTwo] =
      .error ⟨⟨[canonicalize_url (fun _ => false) (pys "http://a.example/1")], []⟩, 0, []⟩ :=
  C7_send_error_aborts_cycle failSendEnv ⟨⟨[], []⟩, 0, []⟩ c7EntryOne [c7EntryTwo]
    (by decide) (by decide) (by decide)

/-- The source link the handler actually uses (`source_link or canonical_link`,
with Python falsiness of the empty string). -/
def effectiveSource (pd : PostData) : PyStr :=
  if pd.source_link ≠ [] then pd.source_link else pd.canonical_link

/-- The binding broadcast budget: the 1024-character photo-caption limit
when an image is attached, the 4096-character text limit otherwise. -/
def budgetOf (pd : PostData) : Nat := if truthyOpt pd.image_url then 1024 else 4096

/-- The text carried by a broadcast send (caption for photos). -/
def broadcastText : BroadcastSend → PyStr
  | .photo _ c => c
  | .message t => t

theorem composeFinal_spec (budget : Nat) (text ll : PyStr)
    (hfit : ll.length + 3 ≤ budget) :
    (composeFinal budget text ll).length ≤ budget ∧
    (text.length > budget - ll.length →
      composeFinal budget text ll =
        text.take (budget - ll.length - 3) ++ pys "..." ++ ll) := by
  simp only [composeFinal]
  by_cases hover : (text.length : Int) > (budget : Int) - ll.length
  · rw [if_pos hover]
    have hkpos : (0 : Int) ≤ (budget : Int) - ll.length - 3 := by omega
    have hk : ((budget : Int) - ll.length - 3).toNat = budget - ll.length - 3 := by omega
    have htake : pyTakeInt text ((budget : Int) - ll.length - 3) =
        text.take (budget - ll.length - 3) := by
      unfold pyTakeInt
      rw [if_pos hkpos, hk]
    rw [htake]
    constructor
    · have hlen : (text.take (budget - ll.length - 3)).length =
          budget - ll.length - 3 := by
        rw [List.length_take]
        omega
      simp only [List.length_append, hlen]
      have h3 : (pys "...").length = 3 := by decide
      rw [h3]
      omega
    · intro _
      simp [List.append_assoc]
  · rw [if_neg hover]
    constructor
    · simp only [List.length_append]
      omega
    · intro hcontra
      exfalso
      omega

/-- C1 amended: on an approve decision for a stored candidate, provided the
source-link suffix together with the three-dot ellipsis fits inside the
binding budget (`len(link_line) + 3 ≤ budget`, true for every realistic
link — it can only fail when the stored link itself approaches the budget),
the string sent to the broadcast channel is the composed base text plus
suffix, never exceeds the budget (1024 with an image, 4096 without), and
whenever the stored text exceeds `budget − len(suffix)` the sent string is
exactly the first `budget − len(suffix) − 3` characters of the stored
text, then `"..."`, then the suffix.  Without the proviso the guarantee is
false — see the counterexample. -/
theorem C1_broadcast_within_budget (st : BotState) (cid : PyStr) (pd : PostData)
    (hfind : List.lookup cid st.pending_posts = some pd)
    (hfit : (link_line (effectiveSource pd)).length + 3 ≤ budgetOf pd) :
    ∃ b, (handleCallback st (some (pys "approve" ++ ':' :: cid))).broadcast = some b ∧
      broadcastText b =
        composeFinal (budgetOf pd) pd.text (link_line (effectiveSource pd)) ∧
      (broadcastText b).length ≤ budgetOf pd ∧
      (pd.text.length > budgetOf pd - (link_line (effectiveSource pd)).length →
        broadcastText b =
          pd.text.take (budgetOf pd - (link_line (effectiveSource pd)).length - 3)
            ++ pys "..." ++ link_line (effectiveSource pd)) := by
  have hac : ':' ∉ pys "approve" := by decide
  simp only [effectiveSource, budgetOf] at hfit ⊢
  rw [handleCallback_found st hac hfind, if_pos rfl]
  by_cases himg : truthyOpt pd.image_url
  · rw [if_pos himg] at hfit ⊢
    simp only [if_pos himg]
    have hcf := composeFinal_spec 1024 pd.text
      (link_line (if pd.source_link ≠ [] then pd.source_link else pd.canonical_link)) hfit
    exact ⟨_, rfl, rfl, hcf.1, hcf.2⟩
  · rw [if_neg himg] at hfit ⊢
    simp only [if_neg himg]
    have hcf := composeFinal_spec 4096 pd.text
      (link_line (if pd.source_link ≠ [] then pd.source_link else pd.canonical_link)) hfit
    exact ⟨_, rfl, rfl, hcf.1, hcf.2⟩

theorem C1_broadcast_within_budget_witness :
    ∃ b, (handleCallback sampleState
        (some (pys "approve" ++ ':' :: pys "token1"))).broadcast = some b ∧
      broadcastText b =
        composeFinal (budgetOf samplePost) samplePost.text
          (link_line (effectiveSource samplePost)) ∧
      (broadcastText b).length ≤ budgetOf samplePost ∧
      (samplePost.text.length >
          budgetOf samplePost - (link_line (effectiveSource samplePost)).length →
        broadcastText b =
          samplePost.text.take
              (budgetOf samplePost - (link_line (effectiveSource samplePost)).length - 3)
            ++ pys "..." ++ link_line (effectiveSource samplePost)) :=
  C1_broadcast_within_budget sampleState (pys "token1") samplePost (by decide) (by decide)

/-- A pathological stored source link of 1011 characters: its link line is
exactly 1024 characters, consuming the whole photo-caption budget. -/
def overlongLink : PyStr := List.replicate 1011 'a'

/-- Candidate with an image and the overlong source link. -/
def overlongPost : PostData := ⟨pys "0123456789", some (pys "i"), 7, overlongLink, overlongLink⟩

/-- Store holding the overlong candidate under token `t`. -/
def overlongState : BotState := ⟨[], [(pys "t", overlongPost)]⟩

set_option maxRecDepth 8000 in
/-- C1 counterexample: with an image attached and a stored source link of
1011 characters, the caption sent on approval is 1034 characters — over
the 1024-character binding budget the claim promises is never exceeded
(`max_len` is 0, Python's negative slice bound `text[:-3]` keeps 7 of the
10 stored characters, and `"..." + link_line` alone already exceeds the
budget).  The claim as stated, quantifying over every stored source link,
is false. -/
theorem C1_counterexample :
    (handleCallback overlongState (some (pys "approve" ++ ':' :: pys "t"))).broadcast =
      some (.photo (pys "i")
        (composeFinal 1024 (pys "0123456789") (link_line overlongLink))) ∧
    (composeFinal 1024 (pys "0123456789") (link_line overlongLink)).length = 1034 ∧
    1024 < (composeFinal 1024 (pys "0123456789") (link_line overlongLink)).length := by
  refine ⟨?_, ?_, ?_⟩ <;> decide

theorem dropWhile_eq_self_of_head {p : Char → Bool} {c : Char} :
    ∀ {l : PyStr}, l.head? = some c → p c = false → l.dropWhile p = l := by
  intro l hh hp
  cases l with
  | nil => simp at hh
  | cons a t =>
    simp only [List.head?_cons, Option.some.injEq] at hh
    rw [List.dropWhile_cons, hh, hp]
    simp

theorem takeWhile_append_all {p : Char → Bool} :
    ∀ {a : PyStr}, (∀ c ∈ a, p c = true) → ∀ b, (a ++ b).takeWhile p = a ++ b.takeWhile p := by
  intro a
  induction a with
  | nil => intro _ b; simp
  | cons x xs ih =>
    intro h b
    have hx : p x = true := h x (List.mem_cons_self x xs)
    simp only [List.cons_append, List.takeWhile_cons, hx, if_true]
    rw [ih (fun c hc => h c (List.mem_cons_of_mem x hc)) b]

theorem dropWhile_append_all {p : Char → Bool} :
    ∀ {a : PyStr}, (∀ c ∈ a, p c = true) → ∀ b, (a ++ b).dropWhile p = b.dropWhile p := by
  intro a
  induction a with
  | nil => intro _ b; simp
  | cons x xs ih =>
    intro h b
    have hx : p x = true := h x (List.mem_cons_self x xs)
    simp only [List.cons_append, List.dropWhile_cons, hx, if_true]
    exact ih (fun c hc => h c (List.mem_cons_of_mem x hc)) b

theorem takeWhile_eq_nil_of_head {p : Char → Bool} {c : Char} {l : PyStr}
    (hh : l.head? = some c) (hp : p c = false) : l.takeWhile p = [] := by
  cases l with
  | nil => simp at hh
  | cons a t =>
    simp only [List.head?_cons, Option.some.injEq] at hh
    rw [List.takeWhile_cons, hh, hp]
    simp

theorem intercalateChar_pair (sep : Char) (a b : PyStr) :
    intercalateChar sep [a, b] = a ++ sep :: b := by
  simp [intercalateChar, List.intercalate, List.intersperse]

theorem intercalateChar_triple (sep : Char) (t a b : PyStr) :
    intercalateChar sep [t, a, b] = t ++ sep :: (a ++ sep :: b) := by
  simp [intercalateChar, List.intercalate, List.intersperse]

theorem rstripWS_length_le (s : PyStr) : (rstripWS s).length ≤ s.length := by
  have h : (s.reverse.dropWhile isPyWS).length ≤ s.reverse.length :=
    (List.dropWhile_sublist _).length_le
  simpa [rstripWS] using h

/-- Shape of `build_validation_message` on the native (non-international)
branch with an over-long summary: the message stays within
`len(title) + len(link) + 1024` characters (so the final 4096 cap never
fires under the fit hypothesis) and ends with the horizontal-ellipsis
character `…` followed by the in-message source line
`\n\n[Читати джерело](<link>)`. -/
theorem bvm_native_spec (nfkc : PyStr → Bool) (tr : PyStr → PyStr)
    (link title summary : PyStr)
    (hintl : is_international nfkc link = false)
    (hsumlong : 1000 < summary.length)
    (hfit : title.length + link.length + 1024 ≤ 4096) :
    (build_validation_message nfkc tr link title summary).length
        ≤ title.length + link.length + 1024 ∧
    (pys "…" ++ pys "\n\n[Читати джерело](" ++ link ++ pys ")")
      <:+ build_validation_message nfkc tr link title summary := by
  have hsne : summary ≠ [] := by
    intro h
    rw [h] at hsumlong
    simp at hsumlong
  have hRle : (rstripWS (summary.take 1000)).length ≤ 1000 := by
    have h1 := rstripWS_length_le (summary.take 1000)
    have h2 : (summary.take 1000).length ≤ 1000 := by simp
    omega
  have e1 : (pys "*").length = 1 := by decide
  have e2 : (pys "…").length = 1 := by decide
  have e3 : (pys "\n[Читати джерело](").length = 18 := by decide
  have e4 : (pys ")").length = 1 := by decide
  have h4 : pys "\n\n[Читати джерело](" = '\n' :: pys "\n[Читати джерело](" := by decide
  simp only [build_validation_message, hintl, Bool.false_eq_true, if_false,
    if_pos hsne, if_pos hsumlong]
  by_cases ht : title = []
  · have hnt : ¬(title ≠ []) := by simp [ht]
    rw [if_neg hnt]
    simp only [List.nil_append, List.singleton_append]
    rw [intercalateChar_pair]
    split
    · next hbig =>
      exfalso
      simp only [List.length_append, List.length_cons, e2, e3, e4] at hbig
      omega
    · constructor
      · simp only [List.length_append, List.length_cons, e2, e3, e4]
        omega
      · refine ⟨rstripWS (summary.take 1000), ?_⟩
        rw [h4]
        simp [List.append_assoc]
  · rw [if_pos ht]
    simp only [List.singleton_append, List.cons_append, List.nil_append]
    rw [intercalateChar_triple]
    split
    · next hbig =>
      exfalso
      simp only [List.length_append, List.length_cons, e1, e2, e3, e4] at hbig
      omega
    · constructor
      · simp only [List.length_append, List.length_cons, e1, e2, e3, e4]
        omega
      · refine ⟨(pys "*" ++ title ++ pys "*") ++ '\n' :: rstripWS (summary.take 1000), ?_⟩
        rw [h4]
        simp [List.append_assoc]

/-- Exact shape of `build_validation_message` on the native branch with a
nonempty title and over-long summary (no final 4096 cap under the fit
hypothesis). -/
theorem bvm_native_eq (nfkc : PyStr → Bool) (tr : PyStr → PyStr)
    (link title summary : PyStr)
    (hintl : is_international nfkc link = false)
    (hsumlong : 1000 < summary.length)
    (htne : title ≠ [])
    (hfit : title.length + link.length + 1024 ≤ 4096) :
    build_validation_message nfkc tr link title summary =
      (pys "*" ++ title ++ pys "*") ++ '\n' ::
        ((rstripWS (summary.take 1000) ++ pys "…") ++ '\n' ::
          (pys "\n[Читати джерело](" ++ (link ++ pys ")"))) := by
  have hsne : summary ≠ [] := by
    intro h
    rw [h] at hsumlong
    simp at hsumlong
  have hRle : (rstripWS (summary.take 1000)).length ≤ 1000 := by
    have h1 := rstripWS_length_le (summary.take 1000)
    have h2 : (summary.take 1000).length ≤ 1000 := by simp
    omega
  have e1 : (pys "*").length = 1 := by decide
  have e2 : (pys "…").length = 1 := by decide
  have e3 : (pys "\n[Читати джерело](").length = 18 := by decide
  have e4 : (pys ")").length = 1 := by decide
  simp only [build_validation_message, hintl, Bool.false_eq_true, if_false,
    if_pos hsne, if_pos hsumlong, if_pos htne]
  simp only [List.singleton_append, List.cons_append, List.nil_append]
  rw [intercalateChar_triple]
  split
  · next hbig =>
    exfalso
    simp only [List.length_append, List.length_cons, e1, e2, e3, e4] at hbig
    omega
  · rfl

theorem composeFinal_fits (budget : Nat) (text ll : PyStr)
    (h : text.length + ll.length ≤ budget) :
    composeFinal budget text ll = text ++ ll := by
  have hc : ¬ ((text.length : Int) > (budget : Int) - (ll.length : Int)) := by
    omega
  simp only [composeFinal]
  rw [if_neg hc]

/-- C8, amended: for a native item with an over-long summary built by
`build_validation_message` (no image, reasonably short title and link),
the approve broadcast sends the stored text plus the source-link suffix,
the result is within the 4096-character text budget, and it ends with the
horizontal ellipsis `…` (U+2026) — not the three ASCII dots `"..."` the
spec promises — immediately before the in-message source line
`\n\n[Читати джерело](<link>)`, which is itself followed by the appended
`\n\n🔗 Джерело: <link>` suffix. -/
theorem C8_native_budget_and_ellipsis (nfkc : PyStr → Bool) (tr : PyStr → PyStr)
    (st : BotState) (cid : PyStr) (pd : PostData) (link title summary : PyStr)
    (hintl : is_international nfkc link = false)
    (hsumlong : 1000 < summary.length)
    (hsmall : title.length + 2 * link.length ≤ 3000)
    (htext : pd.text = build_validation_message nfkc tr link title summary)
    (himg : pd.image_url = none)
    (hsrc : pd.source_link = link)
    (hlink : link ≠ [])
    (hfind : List.lookup cid st.pending_posts = some pd) :
    (handleCallback st (some (pys "approve" ++ ':' :: cid))).broadcast =
      some (.message (pd.text ++ link_line link)) ∧
    (pd.text ++ link_line link).length ≤ 4096 ∧
    (pys "…" ++ pys "\n\n[Читати джерело](" ++ link ++ pys ")" ++ link_line link)
      <:+ pd.text ++ link_line link := by
  have hac : ':' ∉ pys "approve" := by decide
  have hllpre : (pys "\n\n🔗 Джерело: ").length = 13 := by decide
  have hll : (link_line link).length = 13 + link.length := by
    simp [link_line, hllpre]
  obtain ⟨hb1, hb2⟩ := bvm_native_spec nfkc tr link title summary hintl hsumlong (by omega)
  rw [← htext] at hb1 hb2
  have himgn : ¬ (truthyOpt pd.image_url = true) := by simp [truthyOpt, himg]
  have heff : (if pd.source_link ≠ [] then pd.source_link else pd.canonical_link) = link := by
    rw [hsrc]
    simp [hlink]
  have hfit : pd.text.length + (link_line link).length ≤ 4096 := by omega
  refine ⟨?_, by simp only [List.length_append]; omega, ?_⟩
  · rw [handleCallback_found st hac hfind, if_pos rfl, if_neg himgn, heff,
      composeFinal_fits 4096 pd.text (link_line link) hfit]
  · obtain ⟨pre, hpre⟩ := hb2
    refine ⟨pre, ?_⟩
    rw [← hpre]
    simp [List.append_assoc]

/-- A native (non-international) source link for the 5000-character-summary
scenario. -/
def c8Link : PyStr := pys "http://ex.am/p"

/-- A 5000-character summary. -/
def c8Summary : PyStr := List.replicate 5000 'a'

/-- The validator text of the native 5000-character-summary scenario,
written out explicitly; `c8Text_eq` shows it is exactly what
`build_validation_message` produces for that item (identity translator;
the NFKC oracle is irrelevant on this ASCII input). -/
def c8Text : PyStr :=
  (pys "*" ++ pys "T" ++ pys "*") ++ '\n' ::
    ((List.replicate 1000 'a' ++ pys "…") ++ '\n' ::
      (pys "\n[Читати джерело](" ++ (pys "http://ex.am/p" ++ pys ")")))

/-- The stored candidate for the scenario: no image, source link kept. -/
def c8Post : PostData := ⟨c8Text, none, 3, c8Link, c8Link⟩

/-- Store holding the candidate under token `t`. -/
def c8State : BotState := ⟨[], [(pys "t", c8Post)]⟩

/-- `c8Text` is the text `build_validation_message` builds for the
scenario (the 5000-character summary is never evaluated by the kernel,
only rewritten). -/
theorem c8Text_eq :
    build_validation_message (fun _ => true) (fun s => s) c8Link (pys "T") c8Summary =
      c8Text := by
  rw [bvm_native_eq _ _ _ _ _ (by decide)
    (by unfold c8Summary; rw [List.length_replicate]; omega) (by decide) (by decide)]
  unfold c8Summary
  have htk : (List.replicate 5000 'a').take 1000 = List.replicate 1000 'a' := by
    rw [List.take_replicate]
    congr 1
  have hrs : rstripWS (List.replicate 1000 'a') = List.replicate 1000 'a' := by
    unfold rstripWS
    rw [List.reverse_replicate]
    have hh : (List.replicate 1000 'a').head? = some 'a' := by
      rw [show (1000 : Nat) = 999 + 1 from rfl, List.replicate_succ]
      rfl
    rw [dropWhile_eq_self_of_head hh (by decide), List.reverse_replicate]
  rw [htk, hrs]
  unfold c8Text c8Link
  rfl

/-- The part of the scenario text before its final three characters. -/
def c8Front : PyStr :=
  (pys "*" ++ pys "T" ++ pys "*") ++ '\n' ::
    ((List.replicate 1000 'a' ++ pys "…") ++ '\n' ::
      pys "\n[Читати джерело](http://ex.am")

/-- The part of the scenario text before the in-message source-link line. -/
def c8Body : PyStr :=
  (pys "*" ++ pys "T" ++ pys "*") ++ '\n' :: List.replicate 1000 'a'

theorem c8Text_front : c8Text = c8Front ++ pys "/p)" := by
  unfold c8Text c8Front
  have h1 : pys "http://ex.am/p" ++ pys ")" = pys "http://ex.am" ++ pys "/p)" := by decide
  have h2 : pys "\n[Читати джерело](" ++ pys "http://ex.am" =
      pys "\n[Читати джерело](http://ex.am" := by decide
  rw [h1, ← List.append_assoc, h2]
  simp only [List.append_assoc, List.cons_append]

theorem c8Text_body : c8Text =
    c8Body ++ pys "…" ++ pys "\n\n[Читати джерело](http://ex.am/p)" := by
  unfold c8Text c8Body
  have h1 : pys "\n\n[Читати джерело](http://ex.am/p)" =
      '\n' :: (pys "\n[Читати джерело](" ++ (pys "http://ex.am/p" ++ pys ")")) := by decide
  rw [h1]
  simp only [List.append_assoc, List.cons_append]

theorem c8Text_length : c8Text.length = 1039 := by
  unfold c8Text
  have e1 : (pys "*").length = 1 := by decide
  have e2 : (pys "T").length = 1 := by decide
  have e3 : (pys "…").length = 1 := by decide
  have e4 : (pys "\n[Читати джерело](").length = 18 := by decide
  have e5 : (pys "http://ex.am/p").length = 14 := by decide
  have e6 : (pys ")").length = 1 := by decide
  simp only [List.length_append, List.length_cons, List.length_replicate,
    e1, e2, e3, e4, e5, e6]

/-- C8 counterexample: for the native item with a 5000-character summary
and no image, the broadcast text on approval does stay within 4096
characters, but it does not end with the three ASCII dots `"..."` before
the source-link line under either reading of that phrase: the three
characters right before the appended `\n\n🔗 Джерело: <link>` suffix are
`"/p)"`, and the character right before the in-message
`[Читати джерело](<link>)` line is the single horizontal-ellipsis
character `…` (U+2026), not `"..."`. -/
theorem C8_counterexample :
    (handleCallback c8State (some (pys "approve" ++ ':' :: pys "t"))).broadcast =
      some (.message (c8Text ++ link_line c8Link)) ∧
    (c8Text ++ link_line c8Link).length ≤ 4096 ∧
    c8Text ++ link_line c8Link = (c8Front ++ pys "/p)") ++ link_line c8Link ∧
    pys "/p)" ≠ pys "..." ∧
    c8Text ++ link_line c8Link =
      (c8Body ++ pys "…" ++ pys "\n\n[Читати джерело](http://ex.am/p)") ++
        link_line c8Link ∧
    pys "…" ≠ pys "..." := by
  have hfits : c8Text.length + (link_line c8Link).length ≤ 4096 := by
    rw [c8Text_length]
    decide
  refine ⟨?_, ?_, ?_, by decide, ?_, by decide⟩
  · have hac : ':' ∉ pys "approve" := by decide
    have hfind : List.lookup (pys "t") c8State.pending_posts = some c8Post := rfl
    have himgn : ¬ (truthyOpt c8Post.image_url = true) := by
      simp [truthyOpt, c8Post]
    have hsrc : (if c8Post.source_link ≠ [] then c8Post.source_link
        else c8Post.canonical_link) = c8Link := by
      rw [if_pos (show c8Post.source_link ≠ [] by decide)]
      rfl
    rw [handleCallback_found c8State hac hfind, if_pos rfl, if_neg himgn, hsrc,
      composeFinal_fits 4096 c8Post.text (link_line c8Link) hfits]
    rfl
  · simp only [List.length_append]
    rw [c8Text_length]
    decide
  · rw [← c8Text_front]
  · rw [← c8Text_body]

theorem C8_native_budget_and_ellipsis_witness :
    (handleCallback c8State (some (pys "approve" ++ ':' :: pys "t"))).broadcast =
      some (.message (c8Post.text ++ link_line c8Link)) ∧
    (c8Post.text ++ link_line c8Link).length ≤ 4096 ∧
    (pys "…" ++ pys "\n\n[Читати джерело](" ++ c8Link ++ pys ")" ++ link_line c8Link)
      <:+ c8Post.text ++ link_line c8Link :=
  C8_native_budget_and_ellipsis (fun _ => true) (fun s => s) c8State (pys "t") c8Post
    c8Link (pys "T") c8Summary (by decide)
    (by unfold c8Summary; rw [List.length_replicate]; omega)
    (by decide) (by exact c8Text_eq.symm) rfl rfl (by decide) rfl

/-- C5 counterexample: `canonicalize_url` is not idempotent.  On
`"http:////x"` the first pass parses an empty netloc with path `"//x"` and
3.11's `urlunsplit` emits `"http://x"` without restoring the empty-netloc
marker; the second pass then reads `x` as the host and appends `"/"`,
yielding `"http://x/"` ≠ `"http://x"`.  (The NFKC oracle is the constant
`false` — no `_checknetloc` exception — as for any all-ASCII input.) -/
theorem C5_counterexample :
    canonicalize_url (fun _ => false)
        (canonicalize_url (fun _ => false) (pys "http:////x")) ≠
      canonicalize_url (fun _ => false) (pys "http:////x") := by
  decide

theorem findIdx_none_of_all {p : Char → Bool} :
    ∀ {l : PyStr} (i : Nat), (∀ c ∈ l, p c = false) → l.findIdx? p i = none := by
  intro l
  induction l with
  | nil => intro i _; rfl
  | cons c cs ih =>
    intro i h
    rw [List.findIdx?_cons, if_neg (by simp [h c (List.mem_cons_self c cs)])]
    exact ih (i + 1) (fun x hx => h x (List.mem_cons_of_mem c hx))

theorem findIdx_append_sep {p : Char → Bool} {sep : Char} (hsep : p sep = true) :
    ∀ {a : PyStr} (i : Nat), (∀ c ∈ a, p c = false) →
      ∀ b, (a ++ sep :: b).findIdx? p i = some (a.length + i) := by
  intro a
  induction a with
  | nil =>
    intro i _ b
    simp [List.findIdx?_cons, hsep]
  | cons c cs ih =>
    intro i h b
    rw [List.cons_append, List.findIdx?_cons,
      if_neg (by simp [h c (List.mem_cons_self c cs)]),
      ih (i + 1) (fun x hx => h x (List.mem_cons_of_mem c hx)) b]
    congr 1
    simp only [List.length_cons]
    omega

/-- Character facts about `scheme_chars`: closed under `lower()`, ASCII
printable (> 32), never a separator or an unsafe byte. -/
theorem schemeChars_closed :
    ∀ c ∈ schemeChars, pyLowerChar c ∈ schemeChars ∧
      isAsciiAlpha (pyLowerChar c) = isAsciiAlpha c ∧
      32 < c.toNat ∧ unsafeRemove c = false ∧ c ≠ ':' := by
  decide

theorem splitScheme_append_valid {s : PyStr} (hne : s ≠ [])
    (hall : s.all (· ∈ schemeChars) = true)
    (halpha : s.head?.elim false isAsciiAlpha = true) (rest : PyStr) :
    splitScheme (s ++ ':' :: rest) = (pyLower s, rest) := by
  have hmem : ∀ c ∈ s, c ∈ schemeChars := by
    intro c hc
    have := List.all_eq_true.mp hall c hc
    simpa using this
  have hnc : ∀ c ∈ s, decide (c = ':') = false := by
    intro c hc
    simpa using (schemeChars_closed c (hmem c hc)).2.2.2.2
  have hfind : (s ++ ':' :: rest).findIdx? (· = ':') = some (s.length + 0) :=
    findIdx_append_sep (by simp) 0 hnc rest
  have hhead : (s ++ ':' :: rest).head? = s.head? := by
    cases s with
    | nil => exact absurd rfl hne
    | cons a t => rfl
  have htake : (s ++ ':' :: rest).take s.length = s := List.take_left s _
  have hdrop : (s ++ ':' :: rest).drop (s.length + 1) = rest := by
    have ha : s ++ ':' :: rest = (s ++ [':']) ++ rest := by simp
    rw [ha, List.drop_left' (by simp)]
  have hpos : 0 < s.length := List.length_pos.mpr hne
  unfold splitScheme
  rw [hfind]
  simp only [Nat.add_zero]
  rw [htake, hdrop, if_pos ⟨hpos, by rw [hhead]; exact halpha, hall⟩]

theorem splitScheme_head_nonalpha {u : PyStr} {c : Char}
    (hh : u.head? = some c) (hna : isAsciiAlpha c = false) :
    splitScheme u = ([], u) := by
  unfold splitScheme
  cases hf : u.findIdx? (· = ':') with
  | none => rfl
  | some i =>
    show (if 0 < i ∧ u.head?.elim false isAsciiAlpha = true ∧
          (u.take i).all (· ∈ schemeChars) = true then
        (pyLower (u.take i), u.drop (i + 1))
      else ([], u)) = ([], u)
    rw [if_neg]
    intro hcond
    rw [hh] at hcond
    simp only [Option.elim] at hcond
    rw [hna] at hcond
    exact absurd hcond.2.1 (by simp)

theorem splitOnFirst_eq {sep : Char} :
    ∀ {s a b : PyStr}, splitOnFirst sep s = some (a, b) → s = a ++ sep :: b ∧ sep ∉ a := by
  intro s
  induction s with
  | nil => intro a b h; exact absurd h (by simp [splitOnFirst])
  | cons c cs ih =>
    intro a b h
    unfold splitOnFirst at h
    by_cases hc : c = sep
    · rw [if_pos hc] at h
      simp only [Option.some.injEq, Prod.mk.injEq] at h
      rw [← h.1, ← h.2, hc]
      exact ⟨rfl, by simp⟩
    · rw [if_neg hc] at h
      cases hr : splitOnFirst sep cs with
      | none => rw [hr] at h; exact absurd h (by simp)
      | some ab =>
        rw [hr] at h
        obtain ⟨ha, hb⟩ := ih hr
        simp only [Option.some.injEq, Prod.mk.injEq] at h
        rw [← h.1, ← h.2]
        constructor
        · rw [List.cons_append, ← ha]
        · intro hmem
          rcases List.mem_cons.mp hmem with he | hm
          · exact hc he.symm
          · exact hb hm

theorem splitOnFirst_not_none {sep : Char} :
    ∀ {s : PyStr}, splitOnFirst sep s = none → sep ∉ s := by
  intro s
  induction s with
  | nil => intro _ h; simp at h
  | cons c cs ih =>
    intro h hm
    unfold splitOnFirst at h
    by_cases hc : c = sep
    · rw [if_pos hc] at h; simp at h
    · rw [if_neg hc] at h
      cases hr : splitOnFirst sep cs with
      | none =>
        rcases List.mem_cons.mp hm with he | hmm2
        · exact hc he.symm
        · exact ih hr hmm2
      | some ab => rw [hr] at h; simp at h

theorem dropWhile_dw {p : Char → Bool} :
    ∀ l : PyStr, (l.dropWhile p).dropWhile p = l.dropWhile p := by
  intro l
  induction l with
  | nil => rfl
  | cons c cs ih =>
    by_cases hc : p c = true
    · rw [List.dropWhile_cons, if_pos hc, ih]
    · rw [List.dropWhile_cons, if_neg hc, List.dropWhile_cons, if_neg hc]

theorem rstripSlash_idem (s : PyStr) : rstripSlash (rstripSlash s) = rstripSlash s := by
  simp only [rstripSlash, List.reverse_reverse]
  rw [dropWhile_dw]

theorem rstripSlash_append_fix {y : PyStr} (hy : rstripSlash y = y) (hne : y ≠ [])
    (x : PyStr) : rstripSlash (x ++ y) = x ++ y := by
  obtain ⟨c, t, hct⟩ : ∃ c t, y.reverse = c :: t := by
    cases hyr : y.reverse with
    | nil => exact absurd (by simpa using congrArg List.reverse hyr) hne
    | cons c t => exact ⟨c, t, rfl⟩
  have hdy : y.reverse.dropWhile (· = '/') = y.reverse := by
    have := congrArg List.reverse hy
    simpa [rstripSlash] using this
  have hc : decide (c = '/') = false := by
    by_contra hcc
    have hc' : c = '/' := by simpa using hcc
    rw [hct, List.dropWhile_cons, hc'] at hdy
    simp only [decide_True, if_true] at hdy
    have hlen := congrArg List.length hdy
    have hsubl : (List.dropWhile (fun x => decide (x = '/')) t).length ≤ t.length :=
      (List.dropWhile_sublist _).length_le
    simp at hlen
    omega
  simp only [rstripSlash, List.reverse_append]
  rw [hct, List.cons_append, List.dropWhile_cons, hc]
  simp only [if_false, Bool.false_eq_true]
  rw [← List.cons_append, ← hct]
  simp

theorem mem_rstripSlash {c : Char} {s : PyStr} (h : c ∈ rstripSlash s) : c ∈ s := by
  simp only [rstripSlash, List.mem_reverse] at h
  have := (List.dropWhile_sublist (fun x => decide (x = '/'))).mem h
  simpa using this

theorem pyLowerChar_eq_low {c d : Char} (hlow : d.toNat < 97)
    (h : pyLowerChar c = d) : c = d := by
  rcases pyLowerChar_lower_range c with hr | hr
  · rw [← hr, h]
  · rw [h] at hr
    omega

theorem not_mem_pyLower_low {d : Char} {s : PyStr} (hlow : d.toNat < 97)
    (h : d ∉ s) : d ∉ pyLower s := by
  intro hm
  simp only [pyLower, List.mem_map] at hm
  obtain ⟨c, hc, he⟩ := hm
  exact h (pyLowerChar_eq_low hlow he ▸ hc)

theorem intercalateChar_cons_cons (sep : Char) (x y : PyStr) (ys : List PyStr) :
    intercalateChar sep (x :: y :: ys) = x ++ sep :: intercalateChar sep (y :: ys) := by
  simp [intercalateChar, List.intercalate, List.intersperse]

theorem mem_intercalateChar {sep : Char} {c : Char} :
    ∀ {l : List PyStr}, c ∈ intercalateChar sep l → c = sep ∨ ∃ x ∈ l, c ∈ x := by
  intro l
  induction l with
  | nil => intro h; simp [intercalateChar, List.intercalate] at h
  | cons x xs ih =>
    intro h
    cases xs with
    | nil =>
      simp only [intercalateChar, List.intercalate, List.intersperse] at h
      right
      exact ⟨x, List.mem_cons_self x [], by simpa using h⟩
    | cons y ys =>
      rw [intercalateChar_cons_cons] at h
      rcases List.mem_append.mp h with hx | hrest
      · exact Or.inr ⟨x, List.mem_cons_self x _, hx⟩
      · rcases List.mem_cons.mp hrest with he | hm
        · exact Or.inl he
        · rcases ih hm with he | ⟨z, hz, hcz⟩
          · exact Or.inl he
          · exact Or.inr ⟨z, List.mem_cons_of_mem x hz, hcz⟩

theorem pyUrlencode_chars {q : List (PyStr × PyStr)} :
    ∀ c ∈ pyUrlencode q,
      c.toNat ∈ ALWAYS_SAFE ∨ c.toNat = 37 ∨ c.toNat = 43 ∨ c = '&' ∨ c = '=' := by
  intro c hc
  rcases mem_intercalateChar hc with he | ⟨x, hx, hcx⟩
  · exact Or.inr (Or.inr (Or.inr (Or.inl he)))
  · simp only [List.mem_map] at hx
    obtain ⟨kv, _, hkv⟩ := hx
    rw [← hkv] at hcx
    rcases List.mem_append.mp hcx with h1 | h2
    · rcases pyQuotePlus_chars c h1 with h | h | h
      · exact Or.inl h
      · exact Or.inr (Or.inl h)
      · exact Or.inr (Or.inr (Or.inl h))
    · rcases List.mem_cons.mp h2 with he | h3
      · exact Or.inr (Or.inr (Or.inr (Or.inr he)))
      · rcases pyQuotePlus_chars c h3 with h | h | h
        · exact Or.inl h
        · exact Or.inr (Or.inl h)
        · exact Or.inr (Or.inr (Or.inl h))

theorem pyUrlencode_no_specials {q : List (PyStr × PyStr)} :
    ∀ c ∈ pyUrlencode q, c ≠ '#' ∧ c ≠ '?' ∧ unsafeRemove c = false := by
  have hsafe : ∀ x ∈ ALWAYS_SAFE, x ≠ 35 ∧ x ≠ 63 ∧ x ≠ 9 ∧ x ≠ 13 ∧ x ≠ 10 := by decide
  intro c hc
  have hn : c.toNat ≠ 35 ∧ c.toNat ≠ 63 ∧ c.toNat ≠ 9 ∧ c.toNat ≠ 13 ∧ c.toNat ≠ 10 := by
    rcases pyUrlencode_chars c hc with h | h | h | h | h
    · exact hsafe _ h
    · omega
    · omega
    · rw [h]; decide
    · rw [h]; decide
  refine ⟨?_, ?_, ?_⟩
  · intro he
    rw [he] at hn
    exact hn.1 rfl
  · intro he
    rw [he] at hn
    exact hn.2.1 rfl
  · simp only [unsafeRemove, decide_eq_false_iff_not]
    rintro (he | he | he) <;> rw [he] at hn
    · exact hn.2.2.1 rfl
    · exact hn.2.2.2.1 rfl
    · exact hn.2.2.2.2 rfl

theorem filter_unsafe_eq_self {l : PyStr} (h : ∀ c ∈ l, unsafeRemove c = false) :
    l.filter (fun c => ¬ unsafeRemove c) = l := by
  apply List.filter_eq_self.mpr
  intro a ha
  simp [h a ha]

/-- `urlunsplit` on components with empty params and fragment and a
nonempty netloc, written as one explicit string. -/
theorem urlunparse_simple (s n pa q : PyStr) (hn : n ≠ []) :
    urlunparsePy ⟨s, n, pa, [], q, []⟩ =
      (if s ≠ [] then
          s ++ ':' :: (pys "//" ++ n ++
            (if pa ≠ [] ∧ pa.take 1 ≠ pys "/" then '/' :: pa else pa))
        else pys "//" ++ n ++
          (if pa ≠ [] ∧ pa.take 1 ≠ pys "/" then '/' :: pa else pa)) ++
      (if q ≠ [] then '?' :: q else []) := by
  have hnil : ¬(([] : PyStr) ≠ []) := fun h => h rfl
  simp only [urlunparsePy, urlunsplitPy]
  rw [if_neg hnil]
  rw [if_neg hnil]
  rw [if_pos (Or.inl hn : n ≠ [] ∨ (s ≠ [] ∧ s ∈ usesNetloc ∧ pa.take 2 ≠ pys "//"))]
  by_cases hq0 : q ≠ []
  · rw [if_pos hq0, if_pos hq0]
  · rw [if_neg hq0, if_neg hq0, List.append_nil]

theorem netloc_takeWhile (n : PyStr) (z : PyStr) (hnall : ∀ c ∈ n, netlocDelim c = false)
    (hzh : z.head? = some '/') :
    (n ++ z).takeWhile (fun c => ¬ netlocDelim c) = n ∧
    (n ++ z).dropWhile (fun c => ¬ netlocDelim c) = z := by
  induction n with
  | nil =>
    simp only [List.nil_append]
    cases z with
    | nil => simp at hzh
    | cons a t =>
      simp only [List.head?_cons, Option.some.injEq] at hzh
      subst hzh
      constructor
      · rw [List.takeWhile_cons, if_neg (by simp [netlocDelim])]
      · rw [List.dropWhile_cons, if_neg (by simp [netlocDelim])]
  | cons c cs ih =>
    have hc : netlocDelim c = false := hnall c (List.mem_cons_self c cs)
    obtain ⟨ih1, ih2⟩ := ih (fun x hx => hnall x (List.mem_cons_of_mem c hx))
    constructor
    · rw [List.cons_append, List.takeWhile_cons, if_pos (by simp [hc]), ih1]
    · rw [List.cons_append, List.dropWhile_cons, if_pos (by simp [hc]), ih2]

theorem urlsplitE_shape (nfkc : PyStr → Bool) (u sc n z p1 q1 : PyStr)
    (hd : u.dropWhile whatwgStrip = u)
    (hf : u.filter (fun c => ¬ unsafeRemove c) = u)
    (hsp : splitScheme u = (sc, pys "//" ++ (n ++ z)))
    (hnall : ∀ c ∈ n, netlocDelim c = false)
    (hzh : z.head? = some '/')
    (hhash : '#' ∉ z)
    (hqs : (q1 ≠ [] ∧ z = p1 ++ '?' :: q1 ∧ '?' ∉ p1) ∨ (q1 = [] ∧ p1 = z ∧ '?' ∉ z)) :
    urlsplitE nfkc u = .error () ∨ urlsplitE nfkc u = .ok ⟨sc, n, p1, q1, []⟩ := by
  obtain ⟨hTW, hDW⟩ := netloc_takeWhile n z hnall hzh
  have hss : pys "//" = ['/', '/'] := by decide
  have h2 : (pys "//" ++ (n ++ z)).take 2 = pys "//" := by rw [hss]; rfl
  have hd2 : (pys "//" ++ (n ++ z)).drop 2 = n ++ z := by rw [hss]; rfl
  simp only [urlsplitE, hd, hf, hsp]
  rw [if_pos h2, hd2, hTW, hDW]
  by_cases hbr : ('[' ∈ n ∧ ']' ∉ n) ∨ (']' ∈ n ∧ '[' ∉ n)
  · rw [if_pos hbr]
    exact Or.inl rfl
  · rw [if_neg hbr]
    by_cases hnf : nfkc n = true
    · rw [if_pos hnf]
      exact Or.inl rfl
    · rw [if_neg hnf]
      right
      rw [splitOnFirst_none hhash]
      rcases hqs with ⟨hq1, hzeq, hq1n⟩ | ⟨hq1, hp1, hqn⟩
      · rw [hzeq, splitOnFirst_append_sep hq1n q1]
      · rw [hp1, splitOnFirst_none hqn, hq1]

theorem urlsplit_canonical (nfkc : PyStr → Bool) (s n pa q : PyStr)
    (hs : s = [] ∨ (s ≠ [] ∧ s.all (· ∈ schemeChars) = true ∧
      s.head?.elim false isAsciiAlpha = true ∧ pyLower s = s))
    (hn : n ≠ [])
    (hnd : '/' ∉ n ∧ '?' ∉ n ∧ '#' ∉ n ∧ (∀ c ∈ n, unsafeRemove c = false))
    (hpane : pa ≠ [])
    (hpad : '?' ∉ pa ∧ '#' ∉ pa ∧ (∀ c ∈ pa, unsafeRemove c = false))
    (hqd : ∀ c ∈ q, c ≠ '#' ∧ c ≠ '?' ∧ unsafeRemove c = false) :
    urlsplitE nfkc (urlunparsePy ⟨s, n, pa, [], q, []⟩) = .error () ∨
    urlsplitE nfkc (urlunparsePy ⟨s, n, pa, [], q, []⟩) =
      .ok ⟨s, n, if pa ≠ [] ∧ pa.take 1 ≠ pys "/" then '/' :: pa else pa, q, []⟩ := by
  rw [urlunparse_simple s n pa q hn]
  obtain ⟨pp, hppd⟩ : ∃ pp, pp = if pa ≠ [] ∧ pa.take 1 ≠ pys "/" then '/' :: pa else pa :=
    ⟨_, rfl⟩
  rw [← hppd]
  have hpphead : pp.head? = some '/' := by
    rw [hppd]
    by_cases hc : pa ≠ [] ∧ pa.take 1 ≠ pys "/"
    · rw [if_pos hc]; rfl
    · rw [if_neg hc]
      push_neg at hc
      have ht : pa.take 1 = pys "/" := hc hpane
      cases pa with
      | nil => exact absurd rfl hpane
      | cons a t =>
        have h1 : pys "/" = ['/'] := by decide
        rw [h1] at ht
        simp only [List.take_succ_cons, List.take_zero] at ht
        have ha : a = '/' := by
          injection ht
        simp [ha]
  have hppmem : ∀ c ∈ pp, c = '/' ∨ c ∈ pa := by
    intro c hcm
    rw [hppd] at hcm
    by_cases hc : pa ≠ [] ∧ pa.take 1 ≠ pys "/"
    · rw [if_pos hc] at hcm
      exact List.mem_cons.mp hcm
    · rw [if_neg hc] at hcm
      exact Or.inr hcm
  have hnall : ∀ c ∈ n, netlocDelim c = false := by
    intro c hcm
    simp only [netlocDelim, decide_eq_false_iff_not]
    rintro (he | he | he) <;> subst he
    · exact hnd.1 hcm
    · exact hnd.2.1 hcm
    · exact hnd.2.2.1 hcm
  have hmemPP : ∀ c ∈ pp, unsafeRemove c = false := by
    intro c hcm
    rcases hppmem c hcm with he | hm
    · subst he; decide
    · exact hpad.2.2 c hm
  have hhashPP : '#' ∉ pp := by
    intro h
    rcases hppmem '#' h with he | hm
    · exact absurd he (by decide)
    · exact hpad.2.1 hm
  have hqmPP : '?' ∉ pp := by
    intro h
    rcases hppmem '?' h with he | hm
    · exact absurd he (by decide)
    · exact hpad.1 hm
  have hss2 : pys "//" = ['/', '/'] := by decide
  by_cases hq0 : q = []
  · subst hq0
    rw [if_neg (show ¬(([] : PyStr) ≠ []) from fun h => h rfl), List.append_nil]
    rcases hs with hs0 | ⟨hsne, hsall, hsalpha, hslow⟩
    · subst hs0
      rw [if_neg (show ¬(([] : PyStr) ≠ []) from fun h => h rfl), List.append_assoc]
      have hh : (pys "//" ++ (n ++ pp)).head? = some '/' := by rw [hss2]; rfl
      refine urlsplitE_shape nfkc _ [] n pp pp []
        (dropWhile_eq_self_of_head hh (by decide))
        (filter_unsafe_eq_self ?_)
        (splitScheme_head_nonalpha hh (by decide))
        hnall hpphead hhashPP (Or.inr ⟨rfl, rfl, hqmPP⟩)
      intro c hcm
      rw [hss2] at hcm
      simp only [List.cons_append, List.nil_append, List.mem_cons, List.mem_append] at hcm
      rcases hcm with he | he | hm | hm
      · subst he; decide
      · subst he; decide
      · exact hnd.2.2.2 c hm
      · exact hmemPP c hm
    · rw [if_pos hsne, List.append_assoc]
      obtain ⟨a, t, hat⟩ : ∃ a t, s = a :: t := by
        cases s with
        | nil => exact absurd rfl hsne
        | cons a t => exact ⟨a, t, rfl⟩
      have hha : isAsciiAlpha a = true := by
        rw [hat] at hsalpha
        simpa using hsalpha
      have hh : (s ++ ':' :: (pys "//" ++ (n ++ pp))).head? = some a := by
        rw [hat]; rfl
      have hwa : whatwgStrip a = false := by
        simp only [isAsciiAlpha, decide_eq_true_eq] at hha
        simp only [whatwgStrip, decide_eq_false_iff_not]
        omega
      have hmemS : ∀ c ∈ s, unsafeRemove c = false := by
        intro c hc
        have hm := List.all_eq_true.mp hsall c hc
        exact (schemeChars_closed c (by simpa using hm)).2.2.2.1
      refine urlsplitE_shape nfkc _ s n pp pp []
        (dropWhile_eq_self_of_head hh hwa)
        (filter_unsafe_eq_self ?_)
        (by rw [splitScheme_append_valid hsne hsall hsalpha _, hslow])
        hnall hpphead hhashPP (Or.inr ⟨rfl, rfl, hqmPP⟩)
      intro c hcm
      rw [hss2] at hcm
      simp only [List.cons_append, List.nil_append, List.mem_append, List.mem_cons] at hcm
      rcases hcm with hm | he | he | he | hm | hm
      · exact hmemS c hm
      · subst he; decide
      · subst he; decide
      · subst he; decide
      · exact hnd.2.2.2 c hm
      · exact hmemPP c hm
  · rw [if_pos hq0]
    have hzh2 : (pp ++ '?' :: q).head? = some '/' := by
      cases pp with
      | nil => simp at hpphead
      | cons a t => simpa using hpphead
    have hhashZ : '#' ∉ pp ++ '?' :: q := by
      intro h
      rcases List.mem_append.mp h with hm | hm
      · exact hhashPP hm
      rcases List.mem_cons.mp hm with he | hm2
      · exact absurd he (by decide)
      · exact (hqd '#' hm2).1 rfl
    have hmemZ : ∀ c ∈ pp ++ '?' :: q, unsafeRemove c = false := by
      intro c hcm
      rcases List.mem_append.mp hcm with hm | hm
      · exact hmemPP c hm
      rcases List.mem_cons.mp hm with he | hm2
      · subst he; decide
      · exact (hqd c hm2).2.2
    rcases hs with hs0 | ⟨hsne, hsall, hsalpha, hslow⟩
    · subst hs0
      rw [if_neg (show ¬(([] : PyStr) ≠ []) from fun h => h rfl)]
      rw [List.append_assoc, List.append_assoc]
      have hh : (pys "//" ++ (n ++ (pp ++ '?' :: q))).head? = some '/' := by rw [hss2]; rfl
      refine urlsplitE_shape nfkc _ [] n (pp ++ '?' :: q) pp q
        (dropWhile_eq_self_of_head hh (by decide))
        (filter_unsafe_eq_self ?_)
        (splitScheme_head_nonalpha hh (by decide))
        hnall hzh2 hhashZ (Or.inl ⟨hq0, rfl, hqmPP⟩)
      intro c hcm
      rw [hss2] at hcm
      simp only [List.cons_append, List.nil_append, List.mem_cons, List.mem_append] at hcm
      rcases hcm with he | he | hm | hm | he | hm
      · subst he; decide
      · subst he; decide
      · exact hnd.2.2.2 c hm
      · exact hmemPP c hm
      · subst he; decide
      · exact (hqd c hm).2.2
    · rw [if_pos hsne]
      simp only [List.cons_append, List.append_assoc]
      obtain ⟨a, t, hat⟩ : ∃ a t, s = a :: t := by
        cases s with
        | nil => exact absurd rfl hsne
        | cons a t => exact ⟨a, t, rfl⟩
      have hha : isAsciiAlpha a = true := by
        rw [hat] at hsalpha
        simpa using hsalpha
      have hh : (s ++ ':' :: (pys "//" ++ (n ++ (pp ++ '?' :: q)))).head? = some a := by
        rw [hat]; rfl
      have hwa : whatwgStrip a = false := by
        simp only [isAsciiAlpha, decide_eq_true_eq] at hha
        simp only [whatwgStrip, decide_eq_false_iff_not]
        omega
      have hmemS : ∀ c ∈ s, unsafeRemove c = false := by
        intro c hc
        have hm := List.all_eq_true.mp hsall c hc
        exact (schemeChars_closed c (by simpa using hm)).2.2.2.1
      refine urlsplitE_shape nfkc _ s n (pp ++ '?' :: q) pp q
        (dropWhile_eq_self_of_head hh hwa)
        (filter_unsafe_eq_self ?_)
        (by rw [splitScheme_append_valid hsne hsall hsalpha _, hslow])
        hnall hzh2 hhashZ (Or.inl ⟨hq0, rfl, hqmPP⟩)
      intro c hcm
      rw [hss2] at hcm
      simp only [List.cons_append, List.nil_append, List.mem_append, List.mem_cons] at hcm
      rcases hcm with hm | he | he | he | hm | hm | he | hm
      · exact hmemS c hm
      · subst he; decide
      · subst he; decide
      · subst he; decide
      · exact hnd.2.2.2 c hm
      · exact hmemPP c hm
      · subst he; decide
      · exact (hqd c hm).2.2

theorem canon_fixed (nfkc : PyStr → Bool) (s n pa q : PyStr)
    (hs : s = [] ∨ (s ≠ [] ∧ s.all (· ∈ schemeChars) = true ∧
      s.head?.elim false isAsciiAlpha = true ∧ pyLower s = s))
    (hn : n ≠ [])
    (hnl : pyLower n = n)
    (hnd : '/' ∉ n ∧ '?' ∉ n ∧ '#' ∉ n ∧ (∀ c ∈ n, unsafeRemove c = false))
    (hpa : pa = pys "/" ∨ (pa ≠ [] ∧ rstripSlash pa = pa))
    (hpad : '?' ∉ pa ∧ '#' ∉ pa ∧ (∀ c ∈ pa, unsafeRemove c = false))
    (hq : pyUrlencode ((pyParseQsl q).filter (fun kv => pyLower kv.1 ∉ DROP_PARAMS)) = q)
    (hqd : ∀ c ∈ q, c ≠ '#' ∧ c ≠ '?' ∧ unsafeRemove c = false)
    (hB : ¬(s ∈ usesParams ∧ ';' ∈ pa)) :
    canonicalize_url nfkc (urlunparsePy ⟨s, n, pa, [], q, []⟩) =
      urlunparsePy ⟨s, n, pa, [], q, []⟩ := by
  have hpane : pa ≠ [] := by
    rcases hpa with h | ⟨h, _⟩
    · rw [h]; decide
    · exact h
  have hsl : pyLower s = s := by
    rcases hs with h | ⟨_, _, _, h⟩
    · rw [h]; rfl
    · exact h
  rcases urlsplit_canonical nfkc s n pa q hs hn hnd hpane hpad hqd with herr | hok
  · have hperr : urlparseE nfkc (urlunparsePy ⟨s, n, pa, [], q, []⟩) = .error () := by
      unfold urlparseE
      rw [herr]
      rfl
    simp [canonicalize_url, hperr]
  · obtain ⟨pp, hppd⟩ : ∃ pp, pp = if pa ≠ [] ∧ pa.take 1 ≠ pys "/" then '/' :: pa else pa :=
      ⟨_, rfl⟩
    rw [← hppd] at hok
    have hpphead : pp.head? = some '/' := by
      rw [hppd]
      by_cases hc : pa ≠ [] ∧ pa.take 1 ≠ pys "/"
      · rw [if_pos hc]; rfl
      · rw [if_neg hc]
        push_neg at hc
        have ht : pa.take 1 = pys "/" := hc hpane
        cases pa with
        | nil => exact absurd rfl hpane
        | cons a t =>
          have h1 : pys "/" = ['/'] := by decide
          rw [h1] at ht
          simp only [List.take_succ_cons, List.take_zero] at ht
          have ha : a = '/' := by injection ht
          simp [ha]
    have hpptake1 : pp.take 1 = pys "/" := by
      cases pp with
      | nil => simp at hpphead
      | cons a t =>
        have ha : a = '/' := by simpa using hpphead
        have h1 : pys "/" = ['/'] := by decide
        rw [h1, ha]
        simp
    have hppmem : ∀ c ∈ pp, c = '/' ∨ c ∈ pa := by
      intro c hcm
      rw [hppd] at hcm
      by_cases hc : pa ≠ [] ∧ pa.take 1 ≠ pys "/"
      · rw [if_pos hc] at hcm
        exact List.mem_cons.mp hcm
      · rw [if_neg hc] at hcm
        exact Or.inr hcm
    have hdi : (pp = pys "/" ∧ rstripSlash pp = []) ∨ (rstripSlash pp = pp ∧ pp ≠ []) := by
      rcases hpa with hpa1 | ⟨hne, hfix⟩
      · left
        have hcf : ¬(pa ≠ [] ∧ pa.take 1 ≠ pys "/") := by
          intro hcon
          exact hcon.2 (by rw [hpa1]; decide)
        have hppe : pp = pys "/" := by
          rw [hppd, if_neg hcf, hpa1]
        exact ⟨hppe, by rw [hppe]; decide⟩
      · right
        by_cases hc : pa.take 1 = pys "/"
        · have hcf : ¬(pa ≠ [] ∧ pa.take 1 ≠ pys "/") := fun hcon => hcon.2 hc
          have hppe : pp = pa := by rw [hppd, if_neg hcf]
          rw [hppe]
          exact ⟨hfix, hne⟩
        · have hppe : pp = '/' :: pa := by rw [hppd, if_pos ⟨hne, hc⟩]
          rw [hppe]
          constructor
          · have h := rstripSlash_append_fix hfix hne ['/']
            simpa using h
          · simp
    have hBpp : ¬(s ∈ usesParams ∧ ';' ∈ pp) := by
      rintro ⟨h1, h2⟩
      rcases hppmem ';' h2 with he | hm
      · exact absurd he (by decide)
      · exact hB ⟨h1, hm⟩
    have hparse : urlparseE nfkc (urlunparsePy ⟨s, n, pa, [], q, []⟩) =
        .ok ⟨s, n, pp, [], q, []⟩ := by
      simp only [urlparseE, hok, Except.map]
      rw [if_neg hBpp]
    have hfinal : urlunparsePy ⟨s, n, pp, [], q, []⟩ = urlunparsePy ⟨s, n, pa, [], q, []⟩ := by
      rw [urlunparse_simple s n pp q hn, urlunparse_simple s n pa q hn]
      have hcpp : ¬(pp ≠ [] ∧ pp.take 1 ≠ pys "/") := fun hcon => hcon.2 hpptake1
      rw [if_neg hcpp, ← hppd]
    simp only [canonicalize_url, hparse]
    rw [hsl, hnl, hq]
    rcases hdi with ⟨hppe, hnil⟩ | ⟨hfix2, hppne⟩
    · rw [hnil]
      show urlunparsePy ⟨s, n, pys "/", [], q, []⟩ = urlunparsePy ⟨s, n, pa, [], q, []⟩
      rw [← hppe]
      exact hfinal
    · rw [hfix2]
      obtain ⟨a, t, hat⟩ : ∃ a t, pp = a :: t := by
        cases pp with
        | nil => exact absurd rfl hppne
        | cons a t => exact ⟨a, t, rfl⟩
      rw [hat]
      show urlunparsePy ⟨s, n, a :: t, [], q, []⟩ = urlunparsePy ⟨s, n, pa, [], q, []⟩
      rw [← hat]
      exact hfinal

theorem splitScheme_eq_none_case {v : PyStr} (hf : v.findIdx? (· = ':') = none) :
    splitScheme v = ([], v) := by
  unfold splitScheme
  rw [hf]

theorem splitScheme_eq_invalid {v : PyStr} {i : Nat} (hf : v.findIdx? (· = ':') = some i)
    (hc : ¬(0 < i ∧ v.head?.elim false isAsciiAlpha = true ∧
      (v.take i).all (· ∈ schemeChars) = true)) :
    splitScheme v = ([], v) := by
  unfold splitScheme
  rw [hf]
  show (if 0 < i ∧ v.head?.elim false isAsciiAlpha = true ∧
        (v.take i).all (· ∈ schemeChars) = true then
      (pyLower (v.take i), v.drop (i + 1))
    else ([], v)) = ([], v)
  rw [if_neg hc]

theorem splitScheme_eq_valid {v : PyStr} {i : Nat} (hf : v.findIdx? (· = ':') = some i)
    (hc : 0 < i ∧ v.head?.elim false isAsciiAlpha = true ∧
      (v.take i).all (· ∈ schemeChars) = true) :
    splitScheme v = (pyLower (v.take i), v.drop (i + 1)) := by
  unfold splitScheme
  rw [hf]
  show (if 0 < i ∧ v.head?.elim false isAsciiAlpha = true ∧
        (v.take i).all (· ∈ schemeChars) = true then
      (pyLower (v.take i), v.drop (i + 1))
    else ([], v)) = (pyLower (v.take i), v.drop (i + 1))
  rw [if_pos hc]

theorem splitScheme_cases (v : PyStr) :
    splitScheme v = ([], v) ∨
    ∃ i, 0 < i ∧ splitScheme v = (pyLower (v.take i), v.drop (i + 1)) ∧
      (v.take i).all (· ∈ schemeChars) = true ∧
      v.head?.elim false isAsciiAlpha = true := by
  cases hf : v.findIdx? (· = ':') with
  | none => exact Or.inl (splitScheme_eq_none_case hf)
  | some i =>
    by_cases hc : 0 < i ∧ v.head?.elim false isAsciiAlpha = true ∧
        (v.take i).all (· ∈ schemeChars) = true
    · exact Or.inr ⟨i, hc.1, splitScheme_eq_valid hf hc, hc.2.2, hc.2.1⟩
    · exact Or.inl (splitScheme_eq_invalid hf hc)

theorem scheme_lowered_props {x : PyStr} (hne : x ≠ [])
    (hall : x.all (· ∈ schemeChars) = true)
    (halpha : x.head?.elim false isAsciiAlpha = true) :
    pyLower x ≠ [] ∧ (pyLower x).all (· ∈ schemeChars) = true ∧
      (pyLower x).head?.elim false isAsciiAlpha = true ∧
      pyLower (pyLower x) = pyLower x := by
  cases x with
  | nil => exact absurd rfl hne
  | cons a t =>
    have hamem : a ∈ schemeChars := by
      have := List.all_eq_true.mp hall a (List.mem_cons_self a t)
      simpa using this
    refine ⟨by simp [pyLower], ?_, ?_, pyLower_idem _⟩
    · apply List.all_eq_true.mpr
      intro c hc
      simp only [pyLower, List.mem_map] at hc
      obtain ⟨d, hd, he⟩ := hc
      have hdm : d ∈ schemeChars := by
        have := List.all_eq_true.mp hall d hd
        simpa using this
      have := (schemeChars_closed d hdm).1
      rw [he] at this
      simpa using this
    · have halpha2 : isAsciiAlpha a = true := by simpa using halpha
      have := (schemeChars_closed a hamem).2.1
      simp only [pyLower, List.map_cons, List.head?_cons, Option.elim]
      rw [this, halpha2]

theorem netloc_facts {w : PyStr} (hw : ∀ c ∈ w, unsafeRemove c = false) :
    '/' ∉ w.takeWhile (fun c => ¬ netlocDelim c) ∧
    '?' ∉ w.takeWhile (fun c => ¬ netlocDelim c) ∧
    '#' ∉ w.takeWhile (fun c => ¬ netlocDelim c) ∧
    (∀ c ∈ w.takeWhile (fun c => ¬ netlocDelim c), unsafeRemove c = false) := by
  have hdelim : ∀ c ∈ w.takeWhile (fun c => ¬ netlocDelim c), netlocDelim c = false := by
    intro c hc
    have := List.mem_takeWhile_imp hc
    simpa using this
  have hnd : ∀ d, netlocDelim d = true → d ∉ w.takeWhile (fun c => ¬ netlocDelim c) := by
    intro d hd hm
    rw [hdelim d hm] at hd
    exact absurd hd (by simp)
  refine ⟨hnd '/' (by decide), hnd '?' (by decide), hnd '#' (by decide), ?_⟩
  intro c hc
  exact hw c ((List.takeWhile_sublist _).subset hc)

theorem path_facts (frg qtl : PyStr) {u4 fp1 p1 : PyStr}
    (hfp : splitOnFirst '#' u4 = some (fp1, frg) ∨
      (splitOnFirst '#' u4 = none ∧ fp1 = u4))
    (hqp : splitOnFirst '?' fp1 = some (p1, qtl) ∨
      (splitOnFirst '?' fp1 = none ∧ p1 = fp1))
    (hu4 : ∀ c ∈ u4, unsafeRemove c = false) :
    '?' ∉ p1 ∧ '#' ∉ p1 ∧ (∀ c ∈ p1, unsafeRemove c = false) := by
  have hfp1 : '#' ∉ fp1 ∧ (∀ c ∈ fp1, c ∈ u4) := by
    rcases hfp with hsome | ⟨hnone, he⟩
    · obtain ⟨heq, hnm⟩ := splitOnFirst_eq hsome
      exact ⟨hnm, fun c hc => by rw [heq]; exact List.mem_append.mpr (Or.inl hc)⟩
    · rw [he]
      exact ⟨splitOnFirst_not_none hnone, fun c hc => hc⟩
  rcases hqp with hsome | ⟨hnone, he⟩
  · obtain ⟨heq, hnm⟩ := splitOnFirst_eq hsome
    have hsub : ∀ c ∈ p1, c ∈ fp1 := fun c hc => by
      rw [heq]
      exact List.mem_append.mpr (Or.inl hc)
    exact ⟨hnm, fun hh => hfp1.1 (hsub _ hh),
      fun c hc => hu4 c (hfp1.2 c (hsub c hc))⟩
  · rw [he]
    exact ⟨splitOnFirst_not_none hnone, hfp1.1, fun c hc => hu4 c (hfp1.2 c hc)⟩

theorem urlsplitE_ok_props {nfkc : PyStr → Bool} {u : PyStr} {r : SplitResult}
    (h : urlsplitE nfkc u = .ok r) :
    (r.scheme = [] ∨ (r.scheme ≠ [] ∧ r.scheme.all (· ∈ schemeChars) = true ∧
      r.scheme.head?.elim false isAsciiAlpha = true ∧ pyLower r.scheme = r.scheme)) ∧
    ('/' ∉ r.netloc ∧ '?' ∉ r.netloc ∧ '#' ∉ r.netloc ∧
      (∀ c ∈ r.netloc, unsafeRemove c = false)) ∧
    ('?' ∉ r.path ∧ '#' ∉ r.path ∧ (∀ c ∈ r.path, unsafeRemove c = false)) := by
  simp only [urlsplitE] at h
  obtain ⟨v, hv⟩ : ∃ v, v = (u.dropWhile whatwgStrip).filter (fun c => ¬ unsafeRemove c) :=
    ⟨_, rfl⟩
  rw [← hv] at h
  have hvmem : ∀ c ∈ v, unsafeRemove c = false := by
    intro c hc
    rw [hv] at hc
    have := List.of_mem_filter hc
    simpa using this
  have hdropmem : ∀ w : PyStr, (∀ c ∈ w, unsafeRemove c = false) →
      ∀ c ∈ w.dropWhile (fun c => ¬ netlocDelim c), unsafeRemove c = false := by
    intro w hw c hc
    exact hw c ((List.dropWhile_sublist _).subset hc)
  have hd2mem : ∀ c ∈ v.drop 2, unsafeRemove c = false := by
    intro c hc
    exact hvmem c (List.drop_subset _ _ hc)
  rcases splitScheme_cases v with hsc | ⟨i, hipos, hsc, hall, halpha⟩
  · simp only [hsc] at h
    split at h
    · split at h
      · simp at h
      · split at h
        · simp at h
        · split at h
          · next a b heq =>
            split at h
            · next p q2 heq2 =>
              simp only [heq2] at heq
              simp only [Except.ok.injEq] at h
              subst h
              exact ⟨Or.inl rfl, netloc_facts hd2mem,
                path_facts q2 b (Or.inl heq2) (Or.inl heq) (hdropmem _ hd2mem)⟩
            · next heq2 =>
              simp only [heq2] at heq
              simp only [Except.ok.injEq] at h
              subst h
              exact ⟨Or.inl rfl, netloc_facts hd2mem,
                path_facts [] b (Or.inr ⟨heq2, rfl⟩) (Or.inl heq) (hdropmem _ hd2mem)⟩
          · next heq =>
            split at h
            · next p q2 heq2 =>
              simp only [heq2] at heq
              simp only [Except.ok.injEq] at h
              subst h
              exact ⟨Or.inl rfl, netloc_facts hd2mem,
                path_facts q2 [] (Or.inl heq2) (Or.inr ⟨heq, rfl⟩) (hdropmem _ hd2mem)⟩
            · next heq2 =>
              simp only [heq2] at heq
              simp only [Except.ok.injEq] at h
              subst h
              exact ⟨Or.inl rfl, netloc_facts hd2mem,
                path_facts [] [] (Or.inr ⟨heq2, rfl⟩) (Or.inr ⟨heq, rfl⟩) (hdropmem _ hd2mem)⟩
    · split at h
      · simp at h
      · split at h
        · next a b heq =>
          split at h
          · next p q2 heq2 =>
            simp only [heq2] at heq
            simp only [Except.ok.injEq] at h
            subst h
            exact ⟨Or.inl rfl, ⟨by simp, by simp, by simp, by simp⟩,
              path_facts q2 b (Or.inl heq2) (Or.inl heq) hvmem⟩
          · next heq2 =>
            simp only [heq2] at heq
            simp only [Except.ok.injEq] at h
            subst h
            exact ⟨Or.inl rfl, ⟨by simp, by simp, by simp, by simp⟩,
              path_facts [] b (Or.inr ⟨heq2, rfl⟩) (Or.inl heq) hvmem⟩
        · next heq =>
          split at h
          · next p q2 heq2 =>
            simp only [heq2] at heq
            simp only [Except.ok.injEq] at h
            subst h
            exact ⟨Or.inl rfl, ⟨by simp, by simp, by simp, by simp⟩,
              path_facts q2 [] (Or.inl heq2) (Or.inr ⟨heq, rfl⟩) hvmem⟩
          · next heq2 =>
            simp only [heq2] at heq
            simp only [Except.ok.injEq] at h
            subst h
            exact ⟨Or.inl rfl, ⟨by simp, by simp, by simp, by simp⟩,
              path_facts [] [] (Or.inr ⟨heq2, rfl⟩) (Or.inr ⟨heq, rfl⟩) hvmem⟩
  · have hvne : v ≠ [] := by
      cases v with
      | nil => simp at halpha
      | cons a t => simp
    have htne : v.take i ≠ [] := by
      cases v with
      | nil => exact absurd rfl hvne
      | cons a t =>
        cases i with
        | zero => exact absurd hipos (by omega)
        | succ k => simp [List.take_succ_cons]
    have halphaT : (v.take i).head?.elim false isAsciiAlpha = true := by
      cases v with
      | nil => exact absurd rfl hvne
      | cons a t =>
        cases i with
        | zero => exact absurd hipos (by omega)
        | succ k => simpa [List.take_succ_cons] using halpha
    have hschemeP := scheme_lowered_props htne hall halphaT
    have hdmem : ∀ c ∈ (v.drop (i + 1)).drop 2, unsafeRemove c = false := by
      intro c hc
      exact hvmem c (List.drop_subset _ _ (List.drop_subset _ _ hc))
    have hdallmem : ∀ c ∈ v.drop (i + 1), unsafeRemove c = false := by
      intro c hc
      exact hvmem c (List.drop_subset _ _ hc)
    simp only [hsc] at h
    split at h
    · split at h
      · simp at h
      · split at h
        · simp at h
        · split at h
          · next a b heq =>
            split at h
            · next p q2 heq2 =>
              simp only [heq2] at heq
              simp only [Except.ok.injEq] at h
              subst h
              exact ⟨Or.inr hschemeP, netloc_facts hdmem,
                path_facts q2 b (Or.inl heq2) (Or.inl heq) (hdropmem _ hdmem)⟩
            · next heq2 =>
              simp only [heq2] at heq
              simp only [Except.ok.injEq] at h
              subst h
              exact ⟨Or.inr hschemeP, netloc_facts hdmem,
                path_facts [] b (Or.inr ⟨heq2, rfl⟩) (Or.inl heq) (hdropmem _ hdmem)⟩
          · next heq =>
            split at h
            · next p q2 heq2 =>
              simp only [heq2] at heq
              simp only [Except.ok.injEq] at h
              subst h
              exact ⟨Or.inr hschemeP, netloc_facts hdmem,
                path_facts q2 [] (Or.inl heq2) (Or.inr ⟨heq, rfl⟩) (hdropmem _ hdmem)⟩
            · next heq2 =>
              simp only [heq2] at heq
              simp only [Except.ok.injEq] at h
              subst h
              exact ⟨Or.inr hschemeP, netloc_facts hdmem,
                path_facts [] [] (Or.inr ⟨heq2, rfl⟩) (Or.inr ⟨heq, rfl⟩) (hdropmem _ hdmem)⟩
    · split at h
      · simp at h
      · split at h
        · next a b heq =>
          split at h
          · next p q2 heq2 =>
            simp only [heq2] at heq
            simp only [Except.ok.injEq] at h
            subst h
            exact ⟨Or.inr hschemeP, ⟨by simp, by simp, by simp, by simp⟩,
              path_facts q2 b (Or.inl heq2) (Or.inl heq) hdallmem⟩
          · next heq2 =>
            simp only [heq2] at heq
            simp only [Except.ok.injEq] at h
            subst h
            exact ⟨Or.inr hschemeP, ⟨by simp, by simp, by simp, by simp⟩,
              path_facts [] b (Or.inr ⟨heq2, rfl⟩) (Or.inl heq) hdallmem⟩
        · next heq =>
          split at h
          · next p q2 heq2 =>
            simp only [heq2] at heq
            simp only [Except.ok.injEq] at h
            subst h
            exact ⟨Or.inr hschemeP, ⟨by simp, by simp, by simp, by simp⟩,
              path_facts q2 [] (Or.inl heq2) (Or.inr ⟨heq, rfl⟩) hdallmem⟩
          · next heq2 =>
            simp only [heq2] at heq
            simp only [Except.ok.injEq] at h
            subst h
            exact ⟨Or.inr hschemeP, ⟨by simp, by simp, by simp, by simp⟩,
              path_facts [] [] (Or.inr ⟨heq2, rfl⟩) (Or.inr ⟨heq, rfl⟩) hdallmem⟩

theorem splitParams_fst_subset (url : PyStr) : ∀ c ∈ (splitParams url).1, c ∈ url := by
  unfold splitParams
  split
  · split
    · split
      · intro c hc
        exact List.take_subset _ _ hc
      · intro c hc
        exact hc
    · intro c hc
      exact hc
  · intro c hc
    exact List.take_subset _ _ hc

theorem urlparseE_ok_props {nfkc : PyStr → Bool} {u : PyStr} {p : ParseResult}
    (h : urlparseE nfkc u = .ok p) :
    (p.scheme = [] ∨ (p.scheme ≠ [] ∧ p.scheme.all (· ∈ schemeChars) = true ∧
      p.scheme.head?.elim false isAsciiAlpha = true ∧ pyLower p.scheme = p.scheme)) ∧
    ('/' ∉ p.netloc ∧ '?' ∉ p.netloc ∧ '#' ∉ p.netloc ∧
      (∀ c ∈ p.netloc, unsafeRemove c = false)) ∧
    ('?' ∉ p.path ∧ '#' ∉ p.path ∧ (∀ c ∈ p.path, unsafeRemove c = false)) := by
  unfold urlparseE at h
  cases hr : urlsplitE nfkc u with
  | error e =>
    rw [hr] at h
    simp [Except.map] at h
  | ok r =>
    rw [hr] at h
    obtain ⟨hsch, hnet, hpath⟩ := urlsplitE_ok_props hr
    simp only [Except.map, Except.ok.injEq] at h
    subst h
    by_cases hcond : r.scheme ∈ usesParams ∧ ';' ∈ r.path
    · rw [if_pos hcond]
      have hsub : ∀ c ∈ (splitParams r.path).1, c ∈ r.path := splitParams_fst_subset r.path
      exact ⟨hsch, hnet, fun hm => hpath.1 (hsub _ hm), fun hm => hpath.2.1 (hsub _ hm),
        fun c hc => hpath.2.2 c (hsub c hc)⟩
    · rw [if_neg hcond]
      exact ⟨hsch, hnet, hpath⟩

theorem unsafe_pyLower {s : PyStr} (h : ∀ c ∈ s, unsafeRemove c = false) :
    ∀ c ∈ pyLower s, unsafeRemove c = false := by
  intro c hc
  simp only [pyLower, List.mem_map] at hc
  obtain ⟨d, hd, he⟩ := hc
  rcases pyLowerChar_lower_range d with hr | hr
  · rw [← he, hr]
    exact h d hd
  · rw [he] at hr
    simp only [unsafeRemove, decide_eq_false_iff_not]
    rintro (hx | hx | hx) <;> (rw [hx] at hr; revert hr; decide)

/-- C5, amended: `canonicalize_url` is a pure function of its input (the
embedding is a `def`, so determinism is definitional), and it is
idempotent on every URL whose parse yields a nonempty host, provided the
stripped path puts no semicolon where the second parse's `_splitparams`
would split one off (for a lower-cased scheme in `uses_params`).  The
unrestricted idempotence the spec claims is refuted by
`C5_counterexample`. -/
theorem C5_canonicalize_idempotent (nfkc : PyStr → Bool) (u : PyStr)
    (hyp : ∀ p, urlparseE nfkc u = .ok p →
      pyLower p.netloc ≠ [] ∧
      ¬(pyLower p.scheme ∈ usesParams ∧ ';' ∈ rstripSlash p.path)) :
    canonicalize_url nfkc (canonicalize_url nfkc u) = canonicalize_url nfkc u := by
  cases hpr : urlparseE nfkc u with
  | error e =>
    have hcu : canonicalize_url nfkc u = u := by
      simp [canonicalize_url, hpr]
    rw [hcu]
    exact hcu
  | ok p =>
    obtain ⟨hnne, hB⟩ := hyp p hpr
    obtain ⟨hsch, hnet, hpath⟩ := urlparseE_ok_props hpr
    have hqrt : pyUrlencode ((pyParseQsl (pyUrlencode ((pyParseQsl p.query).filter
        (fun kv => pyLower kv.1 ∉ DROP_PARAMS)))).filter
          (fun kv => pyLower kv.1 ∉ DROP_PARAMS)) =
        pyUrlencode ((pyParseQsl p.query).filter (fun kv => pyLower kv.1 ∉ DROP_PARAMS)) := by
      rw [pyParseQsl_pyUrlencode]
      congr 1
      apply List.filter_eq_self.mpr
      intro a ha
      exact (List.mem_filter.mp ha).2
    have hsP : pyLower p.scheme = [] ∨ (pyLower p.scheme ≠ [] ∧
        (pyLower p.scheme).all (· ∈ schemeChars) = true ∧
        (pyLower p.scheme).head?.elim false isAsciiAlpha = true ∧
        pyLower (pyLower p.scheme) = pyLower p.scheme) := by
      rcases hsch with h0 | ⟨hne, hall, hh, hlow⟩
      · left
        rw [h0]
        rfl
      · right
        refine ⟨?_, ?_, ?_, pyLower_idem _⟩
        · rw [hlow]; exact hne
        · rw [hlow]; exact hall
        · rw [hlow]; exact hh
    have hnD : '/' ∉ pyLower p.netloc ∧ '?' ∉ pyLower p.netloc ∧ '#' ∉ pyLower p.netloc ∧
        (∀ c ∈ pyLower p.netloc, unsafeRemove c = false) :=
      ⟨not_mem_pyLower_low (by decide) hnet.1, not_mem_pyLower_low (by decide) hnet.2.1,
       not_mem_pyLower_low (by decide) hnet.2.2.1, unsafe_pyLower hnet.2.2.2⟩
    have hqspec : ∀ c ∈ pyUrlencode ((pyParseQsl p.query).filter
        (fun kv => pyLower kv.1 ∉ DROP_PARAMS)), c ≠ '#' ∧ c ≠ '?' ∧ unsafeRemove c = false :=
      fun c hc => pyUrlencode_no_specials c hc
    cases hrs : rstripSlash p.path with
    | nil =>
      have hcanon : canonicalize_url nfkc u =
          urlunparsePy ⟨pyLower p.scheme, pyLower p.netloc, pys "/", [],
            pyUrlencode ((pyParseQsl p.query).filter
              (fun kv => pyLower kv.1 ∉ DROP_PARAMS)), []⟩ := by
        simp only [canonicalize_url, hpr, hrs]
      rw [hcanon]
      exact canon_fixed nfkc _ _ _ _ hsP hnne (pyLower_idem _) hnD (Or.inl rfl)
        ⟨by decide, by decide, by decide⟩ hqrt hqspec
        (by rintro ⟨_, h2⟩; exact absurd h2 (by decide))
    | cons hd tl =>
      have hcanon : canonicalize_url nfkc u =
          urlunparsePy ⟨pyLower p.scheme, pyLower p.netloc, hd :: tl, [],
            pyUrlencode ((pyParseQsl p.query).filter
              (fun kv => pyLower kv.1 ∉ DROP_PARAMS)), []⟩ := by
        simp only [canonicalize_url, hpr, hrs]
      have hfix : rstripSlash (hd :: tl) = hd :: tl := by
        rw [← hrs]
        exact rstripSlash_idem _
      have hmempa : ∀ c ∈ hd :: tl, c ∈ p.path := by
        intro c hc
        rw [← hrs] at hc
        exact mem_rstripSlash hc
      rw [hrs] at hB
      rw [hcanon]
      exact canon_fixed nfkc _ _ _ _ hsP hnne (pyLower_idem _) hnD
        (Or.inr ⟨by simp, hfix⟩)
        ⟨fun hm => hpath.1 (hmempa _ hm), fun hm => hpath.2.1 (hmempa _ hm),
         fun c hc => hpath.2.2 c (hmempa c hc)⟩
        hqrt hqspec hB

theorem C5_canonicalize_idempotent_witness :
    canonicalize_url (fun _ => false)
        (canonicalize_url (fun _ => false) (pys "http://Ex.COM/a/?b=2&utm_source=x")) =
      canonicalize_url (fun _ => false) (pys "http://Ex.COM/a/?b=2&utm_source=x") := by
  refine C5_canonicalize_idempotent (fun _ => false)
    (pys "http://Ex.COM/a/?b=2&utm_source=x") ?_
  intro p hp
  have he : urlparseE (fun _ => false) (pys "http://Ex.COM/a/?b=2&utm_source=x") =
      .ok ⟨pys "http", pys "Ex.COM", pys "/a/", [], pys "b=2&utm_source=x", []⟩ := by
    decide
  rw [he] at hp
  injection hp with hp2
  subst hp2
  decide
